import Mathlib

/-!
Verification development for `blue_archive/get_resources_v2.py` of the
closure-talk resource pipeline.  The Python source is shallowly embedded:
pure string manipulation becomes Lean functions on `String`/`List Char`,
Python dicts become insertion-ordered association lists, the mutable state
of `get_chars` becomes an explicit state record threaded through a fold,
and the fatal conditions (assert failures, `ValueError` from `str.index`,
`KeyError`, `IndexError`) become an `Except` error monad.

Entities imported by the source from modules not present in the repository
snapshot (`CharData`, `CharLangData`, `GroupData`, `all_langs`, `name_to_id`
from `blue_archive.common`; `Character`, `FilterGroup` from `utils.models`)
are modelled from the specification document, as noted on each definition.
-/

namespace ClosureTalk

/-! ### String primitives mirroring the Python operations -/

/-- Python `str.split(sep)` for a single-character separator, on the
character list: always returns at least one (possibly empty) piece. -/
def splitCharList (sep : Char) : List Char → List (List Char)
  | [] => [[]]
  | c :: rest =>
    match splitCharList sep rest with
    | [] => [[c]]
    | h :: t => if c = sep then [] :: h :: t else (c :: h) :: t

/-- Python `s.split(sep)` for a single-character separator. -/
def strSplit (sep : Char) (s : String) : List String :=
  (splitCharList sep s.data).map (fun l => ⟨l⟩)

/-- Python `path.split("/")[-1]` (the final path segment). -/
def basename (s : String) : String :=
  (strSplit '/' s).getLastD ""

/-- Python `s.split(" ")[-1]` (the last space-separated token). -/
def lastSpaceToken (s : String) : String :=
  (strSplit ' ' s).getLastD ""

/-- Python `str.strip()`: remove leading and trailing whitespace. -/
def strTrim (s : String) : String :=
  ⟨(((s.data.dropWhile Char.isWhitespace).reverse.dropWhile Char.isWhitespace).reverse)⟩

/-- Python `s[0].upper() + s[1:]`; `none` models the `IndexError` raised
when `s` is empty. -/
def capFirst (s : String) : Option String :=
  match s.data with
  | [] => none
  | c :: rest => some ⟨c.toUpper :: rest⟩

/-- Total variant of `capFirst` (used only in theorem statements). -/
def capTotal (s : String) : String :=
  (capFirst s).getD s

/-- The suffix of `l` strictly after the first occurrence of `pat`;
`none` models the `ValueError` raised by Python `str.index` when `pat`
does not occur. -/
def dropThroughList (pat : List Char) : List Char → Option (List Char)
  | [] => none
  | c :: rest =>
    if pat.isPrefixOf (c :: rest) then some ((c :: rest).drop pat.length)
    else dropThroughList pat rest

/-- `name[name.index("Portrait_") + len("Portrait_"):]` from the source;
`none` models the uncaught `ValueError` when `"Portrait_"` is absent. -/
def stripAfterPortrait (s : String) : Option String :=
  (dropThroughList ("Portrait_".data) s.data).map (fun l => ⟨l⟩)

/-- Python `str.endswith`. -/
def strEndsWith (suffix s : String) : Bool :=
  suffix.data.isSuffixOf s.data

/-- Python `str.lower()` (ASCII, as used on the identifiers here). -/
def strLower (s : String) : String :=
  ⟨s.data.map Char.toLower⟩

/-- Lexicographic comparison of character lists by code point, as Python
compares strings. -/
def charLe : List Char → List Char → Bool
  | [], _ => true
  | _ :: _, [] => false
  | a :: as, b :: bs => if a < b then true else if b < a then false else charLe as bs

/-- Python `a <= b` on strings (lexicographic by code point). -/
def strLe (a b : String) : Bool :=
  charLe a.data b.data

/-- Python `sep.join`/f-string concatenation of words with a separator. -/
def joinSep (sep : String) : List String → String
  | [] => ""
  | [x] => x
  | x :: y :: xs => x ++ sep ++ joinSep sep (y :: xs)

/-! ### Insertion-ordered association lists (Python `dict`) -/

/-- An insertion-ordered string-keyed map, as a Python `dict`. -/
abbrev AList (α : Type) := List (String × α)

/-- Python `d[k]` as an `Option` (`none` where Python raises `KeyError`). -/
def lookupA {α : Type} : AList α → String → Option α
  | [], _ => none
  | (k, v) :: rest, key => if k = key then some v else lookupA rest key

/-- Python `d[k] = v`: overwrite in place if the key exists (keeping its
position), otherwise append. -/
def insertA {α : Type} : AList α → String → α → AList α
  | [], key, v => [(key, v)]
  | (k, w) :: rest, key, v =>
    if k = key then (k, v) :: rest else (k, w) :: insertA rest key v

/-- The key list of an association list. -/
def keysA {α : Type} (l : AList α) : List String :=
  l.map Prod.fst

/-! ### Data model

The record types come from `blue_archive.common` and `utils.models`,
which are not part of the repository snapshot; their fields are modelled
from the specification's data-model section and from how the source
accesses them. -/

/-- Modelled from the spec: `CharData` — raw input record with id,
family/personal name plus furigana (ruby) romanization sources, Korean
name parts, and image file path fragments. -/
structure CharData where
  id : String
  family_name : String
  personal_name : String
  family_name_ruby : String
  personal_name_ruby : String
  family_name_kr : String
  personal_name_kr : String
  image_files : List String
  deriving DecidableEq, Repr

/-- Modelled from the spec: `CharLangData` — per-character translation
record: id, language-code → display-name mapping, optional language-code
→ short-name mapping. -/
structure CharLangData where
  id : String
  name : AList String
  short_name : Option (AList String)
  deriving DecidableEq, Repr

/-- Modelled from the spec: `GroupData` — group id plus member character
ids (clubs and schools). -/
structure GroupData where
  id : String
  members : List String
  deriving DecidableEq, Repr

/-- Modelled from the spec: the output `Character` — id, name mapping,
short-name mapping, empty relation list, sorted group ids, and the
per-character image-name list accumulated by `get_chars`. -/
structure Character where
  id : String
  names : AList String
  short_name : AList String
  relations : List String
  groups : List String
  images : List String
  deriving DecidableEq, Repr

/-- Modelled from the spec: `GroupLangData` — localized group record with
id and language-code → optional display-name mapping. -/
structure GroupLangData where
  id : String
  name : AList (Option String)
  deriving DecidableEq, Repr

/-- Modelled from the spec: the output `FilterGroup` — category key,
display label, and parallel lists of group ids, localized name mappings
and selection flags. -/
structure FilterGroup where
  key : String
  label : String
  ids : List String
  names : List (AList String)
  flags : List Bool
  deriving DecidableEq, Repr

/-- Modelled from the spec: `all_langs` — the fixed, closed set of
required language codes, exactly the keys produced by
`get_default_lang_data` in the source. -/
def all_langs : List String := ["ja", "en", "ko", "zh-cn", "zh-tw"]

/-- The fatal conditions of a run, as the uncaught Python exception kinds. -/
inductive RunError where
  | valueError
  | assertEmpty
  | assertDup
  | assertMissingFile
  | keyError
  | indexError
  deriving DecidableEq, Repr

/-- `True`/`False` of an `Except` outcome: did the run finish without a
fatal error? -/
def exceptOk {ε α : Type} : Except ε α → Bool
  | .ok _ => true
  | .error _ => false

/-- The fatal error of a failed run, if any. -/
def exceptErr {ε α : Type} : Except ε α → Option ε
  | .ok _ => none
  | .error e => some e

instance {ε α : Type} [DecidableEq ε] [DecidableEq α] : DecidableEq (Except ε α) :=
  fun a b =>
    match a, b with
    | .error e, .error f =>
      if h : e = f then .isTrue (by rw [h])
      else .isFalse (fun hh => h (by injection hh))
    | .ok x, .ok y =>
      if h : x = y then .isTrue (by rw [h])
      else .isFalse (fun hh => h (by injection hh))
    | .error _, .ok _ => .isFalse (fun hh => Except.noConfusion hh)
    | .ok _, .error _ => .isFalse (fun hh => Except.noConfusion hh)

/-! ### `get_legacy_image_mappings` and `get_default_lang_data` -/

/-- `get_legacy_image_mappings`: from the raw `img_mappings.json` pairs
`(k, v)`, build `{v.split("/")[-1]: k}` dropping empty-target entries. -/
def legacyMappings (raw : List (String × String)) : AList String :=
  raw.foldl (fun acc kv =>
    if kv.2.length > 0 then insertA acc (basename kv.2) kv.1 else acc) []

/-- `[s[0].upper() + s[1:] for s in l]`: capitalize every word, `none` as
soon as one word is empty (the `IndexError`). -/
def capWords : List String → Option (List String)
  | [] => some []
  | s :: rest =>
    match capFirst s, capWords rest with
    | some c, some cs => some (c :: cs)
    | _, _ => none

/-- `get_default_lang_data` from the source, parameterized by the external
romanization function `name_to_id` (imported from `blue_archive.common`,
not in the snapshot).  `none` models the `IndexError` raised when the
NPC-branch capitalizes an empty underscore segment. -/
def get_default_lang_data (nameToId : String → String) (data : CharData) :
    Option CharLangData :=
  if data.family_name.length > 0 then
    let jp_name := data.family_name ++ " " ++ data.personal_name
    let en_name :=
      if data.personal_name_ruby.length > 0 then
        nameToId data.family_name_ruby ++ " " ++ nameToId data.personal_name_ruby
      else
        nameToId data.family_name_ruby ++ " " ++ data.id
    let kr_name := strTrim (data.family_name_kr ++ " " ++ data.personal_name_kr)
    some ⟨data.id,
      [("ja", jp_name), ("en", en_name), ("ko", kr_name), ("zh-cn", ""), ("zh-tw", "")],
      none⟩
  else
    match capWords ((strSplit '_' data.id).filter (fun s => s ≠ "npc")) with
    | none => none
    | some ws =>
      some ⟨data.id,
        [("ja", data.personal_name), ("en", joinSep " " ws), ("ko", ""),
         ("zh-cn", ""), ("zh-tw", "")],
        none⟩

/-! ### The translation-merge steps of `get_chars` -/

/-- Lines 88–94 of the source: overwrite the Japanese and English names
with the freshly derived defaults when the existing Japanese name `tja`
differs from the derived default and is not the protected sentinel
`"初音ミク"`; the `Bool` is the dirty contribution of this step. -/
def refreshNames (dft t : CharLangData) (tja : String) : CharLangData × Bool :=
  let dja := (lookupA dft.name "ja").getD ""
  let den := (lookupA dft.name "en").getD ""
  if tja ≠ dja ∧ tja ≠ "初音ミク" then
    ({ t with name := insertA (insertA t.name "ja" dja) "en" den }, true)
  else
    (t, false)

/-- One step of lines 95–100 of the source: add the language from the
derived default when it is missing from the existing name mapping. -/
def backStep (dft : CharLangData) (acc : CharLangData × Bool) (lang : String) :
    CharLangData × Bool :=
  match lookupA acc.1.name lang with
  | some _ => acc
  | none =>
    ({ acc.1 with name := insertA acc.1.name lang ((lookupA dft.name lang).getD "") },
     true)

/-- Lines 95–100 of the source: backfill every required language missing
from the existing name mapping from the derived default. -/
def backfill (dft t : CharLangData) : CharLangData × Bool :=
  all_langs.foldl (backStep dft) (t, false)

/-- The merge of a derived default translation into an existing entry
(lines 87–100): Japanese/English refresh then missing-language backfill.
The `KeyError` of `trans.name["ja"]` on a record without a Japanese name
is the `.error` case. -/
def mergeExisting (dft t : CharLangData) : Except RunError (CharLangData × Bool) :=
  match lookupA t.name "ja" with
  | none => .error .keyError
  | some tja =>
    let r := refreshNames dft t tja
    let b := backfill dft r.1
    .ok (b.1, r.2 || b.2)

/-- Lines 102–105 of the source: short-name resolution.  Start from the
existing short-name mapping; every required language that is missing or
maps to the empty string is derived as the last space-separated token of
that language's display name.  (The display-name lookup is total here
because the merge step has already backfilled every required language.) -/
def shortStep (t : CharLangData) (sn : AList String) (lang : String) : AList String :=
  let missing := match lookupA sn lang with
    | none => true
    | some v => v = ""
  if missing then insertA sn lang (lastSpaceToken ((lookupA t.name lang).getD ""))
  else sn

/-- See `shortStep`: the loop of lines 102–105. -/
def resolveShortName (t : CharLangData) : AList String :=
  all_langs.foldl (shortStep t) (t.short_name.getD [])

/-! ### The state machine of `get_chars` -/

/-- The external inputs of one `get_chars` run: the loaded data files, the
filesystem (as the set of existing paths), and the external romanization
function. -/
structure Env where
  resRoot : String
  charData : List CharData
  clubData : List GroupData
  schoolData : List GroupData
  translations : List CharLangData
  excluded : List String
  legacyRaw : List (String × String)
  fs : List String
  nameToId : String → String

/-- The mutable state of the `get_chars` loop. -/
structure St where
  translations : AList CharLangData
  dirty : Bool
  result : List Character
  avatar : AList String
  imgConfig : List String
  noSchool : List Character
  noClub : List Character
  deriving DecidableEq, Repr

/-- The run context consumed inside the character loop: every `Env` field
except the loaded translation store and the character list (so a re-run
with a different store uses the identical context). -/
structure Ctx where
  resRoot : String
  clubData : List GroupData
  schoolData : List GroupData
  excluded : List String
  fs : List String
  nameToId : String → String

/-- The loop context of a run. -/
def ctxOf (env : Env) : Ctx :=
  { resRoot := env.resRoot, clubData := env.clubData, schoolData := env.schoolData,
    excluded := env.excluded, fs := env.fs, nameToId := env.nameToId }

/-- `res_root / f"{img}.png"` with `res_root = self.res_root / "assets"`. -/
def pathOf (ctx : Ctx) (img : String) : String :=
  ctx.resRoot ++ "/assets/" ++ img ++ ".png"

/-- `{t.id: t for t in translations}`: key the loaded store by id
(later duplicates overwrite earlier ones, as in a dict comprehension). -/
def mkDict (ts : List CharLangData) : AList CharLangData :=
  ts.foldl (fun acc t => insertA acc t.id t) []

/-- Canonicalization of a non-excluded image basename (lines 121–124):
legacy-mapping substitution if the basename is a known legacy key,
otherwise stripping through the `"Portrait_"` marker; `none` is the
uncaught `ValueError` of `str.index`. -/
def canonicalize (mappings : AList String) (name : String) : Option String :=
  match lookupA mappings name with
  | some v => some v
  | none => stripAfterPortrait name

/-- The avatar-file loop of lines 116–137, over one character's image
references.  State: (accumulated image names, global avatar map, global
image-config paths). -/
def processImgs (ctx : Ctx) (mappings : AList String) :
    List String → List String × AList String × List String →
    Except RunError (List String × AList String × List String)
  | [], acc => .ok acc
  | img :: rest, (imgs, avatar, cfg) =>
    let name := basename img
    if name ∈ ctx.excluded then
      processImgs ctx mappings rest (imgs, avatar, cfg)
    else
      match canonicalize mappings name with
      | none => .error .valueError
      | some n =>
        if n = "" then .error .assertEmpty
        else if (lookupA avatar n).isSome then .error .assertDup
        else
          let file := pathOf ctx img
          if file ∈ ctx.fs then
            processImgs ctx mappings rest
              (imgs ++ [n], insertA avatar n file,
               if strEndsWith "_Collection" (basename img) then cfg ++ [file] else cfg)
          else .error .assertMissingFile

/-- Python `sorted` on a string list. -/
def sortStrings (l : List String) : List String :=
  List.insertionSort (fun a b : String => strLe a b = true) l

/-- The translation-merge step of one loop iteration (lines 81–100):
adopt the default for a new id, otherwise merge into the existing entry;
returns the merged record, the updated store and the dirty contribution. -/
def transStep (translations : AList CharLangData) (d : CharData) (dft : CharLangData) :
    Except RunError (CharLangData × AList CharLangData × Bool) :=
  match lookupA translations d.id with
  | none => .ok (dft, insertA translations d.id dft, true)
  | some t =>
    match mergeExisting dft t with
    | .error e => .error e
    | .ok (t', b) => .ok (t', insertA translations d.id t', b)

/-- The `Character` built for one source record (lines 107–113 and 138):
merged names, resolved short names, empty relations, sorted group
memberships, and the lexicographically sorted image-name list. -/
def charOf (ctx : Ctx) (d : CharData) (t' : CharLangData) (imgs : List String) :
    Character :=
  { id := d.id, names := t'.name, short_name := resolveShortName t', relations := [],
    groups := sortStrings (((ctx.clubData ++ ctx.schoolData).filter
      (fun gp => d.id ∈ gp.members)).map (fun gp => gp.id)),
    images := sortStrings imgs }

/-- One iteration of the character loop (lines 77–143): derive the
default translation, merge it into the store, resolve short names,
collect sorted group memberships, process the image references, and file
the character into the no-school/no-club diagnostic lists. -/
def processChar (ctx : Ctx) (mappings : AList String) (st : St) (d : CharData) :
    Except RunError St :=
  match get_default_lang_data ctx.nameToId d with
  | none => .error .indexError
  | some dft =>
    match transStep st.translations d dft with
    | .error e => .error e
    | .ok (t', trans', b) =>
      match processImgs ctx mappings d.image_files ([], st.avatar, st.imgConfig) with
      | .error e => .error e
      | .ok (imgs, avatar', cfg') =>
        .ok { translations := trans', dirty := st.dirty || b,
              result := st.result ++ [charOf ctx d t' imgs],
              avatar := avatar', imgConfig := cfg',
              noSchool :=
                if (ctx.schoolData.filter (fun gp => d.id ∈ gp.members)).length = 0
                then st.noSchool ++ [charOf ctx d t' imgs] else st.noSchool,
              noClub :=
                if (ctx.clubData.filter (fun gp => d.id ∈ gp.members)).length = 0
                then st.noClub ++ [charOf ctx d t' imgs] else st.noClub }

/-- The character loop itself. -/
def charLoop (ctx : Ctx) (mappings : AList String) (st : St) :
    List CharData → Except RunError St
  | [] => .ok st
  | d :: rest =>
    match processChar ctx mappings st d with
    | .error e => .error e
    | .ok st' => charLoop ctx mappings st' rest

/-- One diagnostic-report entry (lines 152 and 155): id, Japanese name,
first sorted image name.  `KeyError`/`IndexError` when the Japanese name
is missing or the image list is empty. -/
def reportFor (c : Character) : Except RunError String :=
  match lookupA c.names "ja" with
  | none => .error .keyError
  | some ja =>
    match c.images with
    | [] => .error .indexError
    | img0 :: _ => .ok (c.id ++ "\n  " ++ ja ++ "\n  " ++ img0 ++ "\n\n")

/-- The diagnostic report for a list of characters, in order. -/
def reports : List Character → Except RunError (List String)
  | [] => .ok []
  | c :: rest =>
    match reportFor c with
    | .error e => .error e
    | .ok line =>
      match reports rest with
      | .error e => .error e
      | .ok lines => .ok (line :: lines)

/-- `sorted(translations.values(), key=lambda x: x.id.lower())`. -/
def sortByIdLower (ts : List CharLangData) : List CharLangData :=
  List.insertionSort
    (fun a b : CharLangData => strLe (strLower a.id) (strLower b.id) = true) ts

/-- The observable outcome of a successful `get_chars` run: the returned
catalog structures, the final translation state, the translation-store
write (`none` when the store file is left untouched), and the two
generated diagnostic reports. -/
structure RunOutput where
  chars : List Character
  avatar : AList String
  imgConfig : List String
  finalTrans : AList CharLangData
  storeWrite : Option (List CharLangData)
  noSchoolReport : List String
  noClubReport : List String
  deriving DecidableEq, Repr

/-- The loop state at the start of a run. -/
def initSt (env : Env) : St :=
  { translations := mkDict env.translations, dirty := false, result := [],
    avatar := [], imgConfig := [], noSchool := [], noClub := [] }

/-- `get_chars` from the source: load-free shallow embedding over `Env`. -/
def get_chars (env : Env) : Except RunError RunOutput :=
  match charLoop (ctxOf env) (legacyMappings env.legacyRaw) (initSt env) env.charData with
  | .error e => .error e
  | .ok st =>
    let sw := if st.dirty then some (sortByIdLower (st.translations.map Prod.snd))
              else none
    match reports st.noSchool with
    | .error e => .error e
    | .ok rs =>
      match reports st.noClub with
      | .error e => .error e
      | .ok rc =>
        .ok { chars := st.result, avatar := st.avatar, imgConfig := st.imgConfig,
              finalTrans := st.translations, storeWrite := sw,
              noSchoolReport := rs, noClubReport := rc }

/-- The canonical names a character's image references successfully
canonicalize to, in order: excluded basenames are skipped and
`ValueError` cases dropped. -/
def canonNames (excl : List String) (mappings : AList String) (d : CharData) :
    List String :=
  d.image_files.filterMap (fun img =>
    if basename img ∈ excl then none else canonicalize mappings (basename img))

/-! ### `get_filters` -/

/-- The inputs of `get_filters`: the two localized group files and the
group-type display-label table (total here; the source looks labels up in
a loaded dict). -/
structure FilterEnv where
  schools : List GroupLangData
  clubs : List GroupLangData
  typeNames : String → String

/-- Line 173 of the source, one language at a time:
`{k: gp.name[k] or "" for k in all_langs}` — `KeyError` when a required
language is absent from the record; a present null (or empty) value
becomes the empty string. -/
def normEntries (gp : GroupLangData) : List String → Except RunError (AList String)
  | [] => .ok []
  | k :: rest =>
    match lookupA gp.name k with
    | none => .error RunError.keyError
    | some v =>
      match normEntries gp rest with
      | .error e => .error e
      | .ok tl => .ok ((k, v.getD "") :: tl)

/-- Line 173 of the source over all required languages. -/
def normalizeName (gp : GroupLangData) : Except RunError (AList String) :=
  normEntries gp all_langs

/-- `sorted(groups, key=lambda gp: gp.id)`. -/
def sortGroups (gps : List GroupLangData) : List GroupLangData :=
  List.insertionSort (fun a b : GroupLangData => strLe a.id b.id = true) gps

/-- The name-normalization loop over the sorted groups of one category. -/
def normAll : List GroupLangData → Except RunError (List (AList String))
  | [] => .ok []
  | gp :: rest =>
    match normalizeName gp with
    | .error e => .error e
    | .ok nm =>
      match normAll rest with
      | .error e => .error e
      | .ok tl => .ok (nm :: tl)

/-- One `FilterGroup` of the result (lines 169–180). -/
def buildFilterGroup (key label : String) (gps : List GroupLangData) :
    Except RunError FilterGroup :=
  match normAll (sortGroups gps) with
  | .error e => .error e
  | .ok names =>
    .ok ⟨key, label, (sortGroups gps).map (fun gp => gp.id), names,
      List.replicate (sortGroups gps).length false⟩

/-- `get_filters` from the source: schools then clubs. -/
def get_filters (env : FilterEnv) : Except RunError (List FilterGroup) :=
  match buildFilterGroup "schools" (env.typeNames "schools") env.schools with
  | .error e => .error e
  | .ok s =>
    match buildFilterGroup "clubs" (env.typeNames "clubs") env.clubs with
    | .error e => .error e
    | .ok c => .ok [s, c]

/-! ### Association-list lemmas -/

theorem lookupA_insertA_self {α : Type} (l : AList α) (k : String) (v : α) :
    lookupA (insertA l k v) k = some v := by
  induction l with
  | nil => simp [insertA, lookupA]
  | cons hd rest ih =>
    obtain ⟨k', w⟩ := hd
    by_cases h : k' = k
    · subst h; simp [insertA, lookupA]
    · simp [insertA, lookupA, h, ih]

theorem lookupA_insertA_ne {α : Type} (l : AList α) (k : String) (v : α) (key : String)
    (h : k ≠ key) : lookupA (insertA l k v) key = lookupA l key := by
  induction l with
  | nil => simp [insertA, lookupA, h]
  | cons hd rest ih =>
    obtain ⟨k', w⟩ := hd
    by_cases h' : k' = k
    · subst h'; simp [insertA, lookupA, h]
    · simp [insertA, lookupA, h', ih]

theorem insertA_lookup_self {α : Type} (l : AList α) (k : String) (v : α)
    (h : lookupA l k = some v) : insertA l k v = l := by
  induction l with
  | nil => simp [lookupA] at h
  | cons hd rest ih =>
    obtain ⟨k', w⟩ := hd
    by_cases h' : k' = k
    · subst h'
      have hw : w = v := by simpa [lookupA] using h
      simp [insertA, hw]
    · simp only [lookupA, if_neg h'] at h
      simp [insertA, h', ih h]

theorem mem_keysA_insertA {α : Type} (l : AList α) (k : String) (v : α) (key : String) :
    key ∈ keysA (insertA l k v) ↔ key ∈ keysA l ∨ key = k := by
  induction l with
  | nil => simp [insertA, keysA, eq_comm]
  | cons hd rest ih =>
    obtain ⟨k', w⟩ := hd
    by_cases h' : k' = k
    · subst h'; simp [insertA, keysA]
      intro h; exact Or.inl h
    · simp [insertA, keysA, h'] at ih ⊢
      rw [or_assoc] at *
      constructor
      · rintro (h | h)
        · exact Or.inl h
        · exact Or.inr (ih.mp h)
      · rintro (h | h)
        · exact Or.inl h
        · exact Or.inr (ih.mpr h)

theorem lookupA_eq_none_iff {α : Type} (l : AList α) (key : String) :
    lookupA l key = none ↔ key ∉ keysA l := by
  induction l with
  | nil => simp [lookupA, keysA]
  | cons hd rest ih =>
    obtain ⟨k', w⟩ := hd
    by_cases h' : k' = key
    · subst h'; simp [lookupA, keysA]
    · simp [lookupA, keysA, h', ih, Ne.symm h']

theorem mem_of_lookupA {α : Type} (l : AList α) (key : String) (v : α)
    (h : lookupA l key = some v) : (key, v) ∈ l := by
  induction l with
  | nil => simp [lookupA] at h
  | cons hd rest ih =>
    obtain ⟨k', w⟩ := hd
    by_cases h' : k' = key
    · subst h'
      have hw : w = v := by simpa [lookupA] using h
      subst hw
      exact List.mem_cons_self _ _
    · simp only [lookupA, if_neg h'] at h
      exact List.mem_cons_of_mem _ (ih h)

theorem lookupA_isSome_iff {α : Type} (l : AList α) (key : String) :
    (lookupA l key).isSome = true ↔ key ∈ keysA l := by
  cases hv : lookupA l key with
  | none =>
    simp only [Option.isSome_none, Bool.false_eq_true, false_iff]
    exact (lookupA_eq_none_iff l key).mp hv
  | some v =>
    simp only [Option.isSome_some, true_iff, keysA]
    exact List.mem_map_of_mem Prod.fst (mem_of_lookupA _ _ _ hv)

theorem lookupA_of_mem_nodup {α : Type} (l : AList α) (key : String) (v : α)
    (hmem : (key, v) ∈ l) (hn : (keysA l).Nodup) : lookupA l key = some v := by
  induction l with
  | nil => simp at hmem
  | cons hd rest ih =>
    obtain ⟨k', w⟩ := hd
    simp only [keysA, List.map_cons, List.nodup_cons] at hn
    rcases List.mem_cons.mp hmem with h | h
    · injection h with h1 h2
      subst h1
      subst h2
      simp [lookupA]
    · have hk : k' ≠ key := by
        intro heq; subst heq
        exact hn.1 (List.mem_map_of_mem Prod.fst h)
      simp only [lookupA, if_neg hk]
      exact ih h hn.2

theorem nodup_keysA_insertA {α : Type} (l : AList α) (k : String) (v : α)
    (hn : (keysA l).Nodup) : (keysA (insertA l k v)).Nodup := by
  induction l with
  | nil => simp [insertA, keysA]
  | cons hd rest ih =>
    obtain ⟨k', w⟩ := hd
    simp only [keysA, List.map_cons, List.nodup_cons] at hn
    by_cases h' : k' = k
    · subst h'
      simpa [insertA, keysA, List.nodup_cons] using hn
    · simp only [insertA, if_neg h', keysA, List.map_cons, List.nodup_cons]
      refine ⟨fun hmem => ?_, ih hn.2⟩
      rcases (mem_keysA_insertA rest k v k').mp hmem with h | h
      · exact hn.1 h
      · exact h' h

theorem lookupA_congr_perm {α : Type} (l₁ l₂ : AList α) (h : l₁.Perm l₂)
    (hn : (keysA l₁).Nodup) (key : String) : lookupA l₁ key = lookupA l₂ key := by
  have hn₂ : (keysA l₂).Nodup := ((h.map Prod.fst).nodup_iff).mp hn
  cases hv : lookupA l₁ key with
  | none =>
    rw [lookupA_eq_none_iff] at hv
    rw [eq_comm, lookupA_eq_none_iff]
    intro hmem
    exact hv ((h.map Prod.fst).mem_iff.mpr hmem)
  | some v =>
    rw [eq_comm]
    exact lookupA_of_mem_nodup _ _ _ (h.mem_iff.mp (mem_of_lookupA _ _ _ hv)) hn₂

/-! ### Character-level helper lemmas -/

/-- `Char.toNat` of a `Char.ofNat` at a valid codepoint. -/
theorem toNat_charOfNat (n : Nat) (h : n.isValidChar) : (Char.ofNat n).toNat = n := by
  rw [Char.ofNat, dif_pos h]
  rfl

/-- Only `'n'` and `'N'` uppercase to `'N'`. -/
theorem char_toUpper_eq_N (c : Char) (h : c.toUpper = 'N') : c = 'n' ∨ c = 'N' := by
  unfold Char.toUpper at h
  simp only [] at h
  by_cases hrange : c.toNat >= 97 ∧ c.toNat <= 122
  · rw [if_pos hrange] at h
    left
    have hv : (Char.ofNat (c.toNat - 32)).toNat = ('N' : Char).toNat := by rw [h]
    rw [toNat_charOfNat] at hv
    · have hc : c.toNat = 110 := by
        have : ('N' : Char).toNat = 78 := by decide
        omega
      have hval : c.val = ('n' : Char).val := by
        have h1 : c.val.toNat = ('n' : Char).val.toNat := hc
        exact UInt32.toNat.inj h1
      exact Char.eq_of_val_eq hval
    · exact Or.inl (by omega)
  · rw [if_neg hrange] at h
    right; exact h

/-- Only the segments `"npc"` and `"Npc"` capitalize to `"Npc"`. -/
theorem capTotal_eq_Npc (s : String) (h : capTotal s = "Npc") :
    s = "npc" ∨ s = "Npc" := by
  rcases hd : s.data with _ | ⟨c, rest⟩
  · have hcap : capTotal s = s := by
      unfold capTotal capFirst
      rw [hd]
      rfl
    rw [hcap] at h
    right; exact h
  · have hcap : capTotal s = ⟨c.toUpper :: rest⟩ := by
      unfold capTotal capFirst
      rw [hd]
      rfl
    rw [hcap] at h
    have hdata : c.toUpper :: rest = ['N', 'p', 'c'] := String.ext_iff.mp h
    obtain ⟨h1, h2⟩ : c.toUpper = 'N' ∧ rest = ['p', 'c'] := by
      injection hdata with ha hb
      exact ⟨ha, hb⟩
    rcases char_toUpper_eq_N c h1 with hc | hc
    · left
      apply String.ext
      rw [hd, hc, h2]
    · right
      apply String.ext
      rw [hd, hc, h2]

/-! ### Lemmas about `get_default_lang_data` -/

theorem strLength_pos (s : String) (h : s ≠ "") : s.length > 0 := by
  rcases hd : s.data with _ | ⟨c, rest⟩
  · exact absurd (String.ext hd) h
  · simp [String.length, hd]

theorem capWords_eq_map (l ws : List String) (h : capWords l = some ws) :
    ws = l.map capTotal := by
  induction l generalizing ws with
  | nil =>
    simp only [capWords, Option.some.injEq] at h
    simp [← h]
  | cons s rest ih =>
    unfold capWords at h
    cases hc : capFirst s with
    | none => rw [hc] at h; simp at h
    | some c =>
      rw [hc] at h
      cases hcs : capWords rest with
      | none => rw [hcs] at h; simp at h
      | some cs =>
        rw [hcs] at h
        simp only [Option.some.injEq] at h
        have : capTotal s = c := by simp [capTotal, hc]
        simp [← h, this, ih cs hcs]

/-- Both branches of the derivation produce the full five-language name
list with the source id and no short names. -/
theorem default_name_shape (nameToId : String → String) (d : CharData)
    (t : CharLangData) (h : get_default_lang_data nameToId d = some t) :
    t.id = d.id ∧ t.short_name = none ∧
    ∃ ja en ko, t.name =
      [("ja", ja), ("en", en), ("ko", ko), ("zh-cn", ""), ("zh-tw", "")] := by
  unfold get_default_lang_data at h
  by_cases hf : d.family_name.length > 0
  · rw [if_pos hf] at h
    simp only [Option.some.injEq] at h
    rw [← h]
    exact ⟨rfl, rfl, _, _, _, rfl⟩
  · rw [if_neg hf] at h
    cases hm : capWords ((strSplit '_' d.id).filter (fun s => s ≠ "npc")) with
    | none => rw [hm] at h; simp at h
    | some ws =>
      rw [hm] at h
      simp only [Option.some.injEq] at h
      rw [← h]
      exact ⟨rfl, rfl, _, _, _, rfl⟩

/-- **C5**: for non-empty `family_name`, the derived default English name
is the romanized family ruby, a space, and the romanized personal ruby
when the latter is present, else the romanized family ruby, a space, and
the raw id. -/
theorem default_en_name_family_branch (nameToId : String → String) (d : CharData)
    (hfam : d.family_name ≠ "") :
    ∃ t, get_default_lang_data nameToId d = some t ∧
      (d.family_name_ruby ≠ "" → d.personal_name_ruby ≠ "" →
        lookupA t.name "en" =
          some (nameToId d.family_name_ruby ++ " " ++ nameToId d.personal_name_ruby)) ∧
      (d.personal_name_ruby = "" →
        lookupA t.name "en" = some (nameToId d.family_name_ruby ++ " " ++ d.id)) := by
  have hlen : d.family_name.length > 0 := strLength_pos _ hfam
  refine ⟨_, by unfold get_default_lang_data; rw [if_pos hlen], ?_, ?_⟩
  · intro _ hp
    have hplen : d.personal_name_ruby.length > 0 := strLength_pos _ hp
    rw [if_pos hplen]
    simp [lookupA]
  · intro hp
    have hplen : ¬ d.personal_name_ruby.length > 0 := by
      rw [hp]; decide
    rw [if_neg hplen]
    simp [lookupA]

/-- **C4 counterexample**: a `CharData` with empty family name whose id
contains the segment `"Npc"` (capital N) derives an English name whose
space-separated words contain `"Npc"`, contrary to the claim that no
derived English name contains such a word. -/
theorem npc_word_counterexample :
    (⟨"Npc_x", "", "p", "", "", "", "", []⟩ : CharData).family_name = "" ∧
    get_default_lang_data (fun s => s) ⟨"Npc_x", "", "p", "", "", "", "", []⟩ =
      some ⟨"Npc_x", [("ja", "p"), ("en", "Npc X"), ("ko", ""), ("zh-cn", ""),
        ("zh-tw", "")], none⟩ ∧
    "Npc" ∈ strSplit ' ' "Npc X" := by
  refine ⟨rfl, ?_, ?_⟩ <;> decide

/-- **C4** (amended): for empty `family_name`, the derived default has
Japanese name = personal name, Korean name = `""`, English name = the
space-join of the capitalized non-`"npc"` underscore segments of the id;
the filter drops exactly the lowercase segments `"npc"` (which would
otherwise capitalize to `"Npc"`), so a word `"Npc"` can appear in the
join only when the id itself contains the literal segment `"Npc"`. -/
theorem default_lang_npc_branch (nameToId : String → String) (d : CharData)
    (t : CharLangData) (hfam : d.family_name = "")
    (ht : get_default_lang_data nameToId d = some t) :
    lookupA t.name "ja" = some d.personal_name ∧
    lookupA t.name "ko" = some "" ∧
    lookupA t.name "en" =
      some (joinSep " " (((strSplit '_' d.id).filter (fun s => s ≠ "npc")).map capTotal)) ∧
    capTotal "npc" = "Npc" ∧
    ("Npc" ∈ ((strSplit '_' d.id).filter (fun s => s ≠ "npc")).map capTotal →
      "Npc" ∈ strSplit '_' d.id) := by
  have hf : ¬ d.family_name.length > 0 := by rw [hfam]; decide
  unfold get_default_lang_data at ht
  rw [if_neg hf] at ht
  cases hm : capWords ((strSplit '_' d.id).filter (fun s => s ≠ "npc")) with
  | none => rw [hm] at ht; simp at ht
  | some ws =>
    rw [hm] at ht
    simp only [Option.some.injEq] at ht
    rw [← ht]
    have hws : ws = ((strSplit '_' d.id).filter (fun s => s ≠ "npc")).map capTotal :=
      capWords_eq_map _ _ hm
    refine ⟨by simp [lookupA], by simp [lookupA], by simp [lookupA, hws], by decide, ?_⟩
    intro hmem
    obtain ⟨s, hs, hcap⟩ := List.mem_map.mp hmem
    obtain ⟨hseg, hne⟩ := List.mem_filter.mp hs
    have hne' : s ≠ "npc" := by simpa using hne
    rcases capTotal_eq_Npc s hcap with h | h
    · exact absurd h hne'
    · exact h ▸ hseg

/-- **C4 witness**: the spec's own example `id = "npc_shop_keeper"`
derives English name `"Shop Keeper"`. -/
theorem default_lang_npc_branch_witness :
    (⟨"npc_shop_keeper", "", "", "", "", "", "", []⟩ : CharData).family_name = "" ∧
    get_default_lang_data (fun s => s) ⟨"npc_shop_keeper", "", "", "", "", "", "", []⟩ =
      some ⟨"npc_shop_keeper", [("ja", ""), ("en", "Shop Keeper"), ("ko", ""),
        ("zh-cn", ""), ("zh-tw", "")], none⟩ ∧
    joinSep " " (((strSplit '_' "npc_shop_keeper").filter (fun s => s ≠ "npc")).map capTotal)
      = "Shop Keeper" ∧
    lookupA [("ja", ""), ("en", "Shop Keeper"), ("ko", ""), ("zh-cn", ""),
        ("zh-tw", "")] "ja" = some "" := by
  refine ⟨rfl, by decide, by decide, ?_⟩
  exact (default_lang_npc_branch (fun s => s)
    ⟨"npc_shop_keeper", "", "", "", "", "", "", []⟩
    ⟨"npc_shop_keeper", [("ja", ""), ("en", "Shop Keeper"), ("ko", ""),
      ("zh-cn", ""), ("zh-tw", "")], none⟩ rfl (by decide)).1

/-- **C5 witness**: the family-name branch at a concrete record. -/
theorem default_en_name_family_branch_witness :
    (⟨"aru", "Rikuhachima", "Aru", "rikuhachima", "aru", "", "", []⟩ : CharData).family_name
        ≠ "" ∧
    ∃ t, get_default_lang_data (fun s => "R" ++ s)
        ⟨"aru", "Rikuhachima", "Aru", "rikuhachima", "aru", "", "", []⟩ = some t ∧
      (("rikuhachima" : String) ≠ "" → ("aru" : String) ≠ "" →
        lookupA t.name "en" = some ("Rrikuhachima" ++ " " ++ "Raru")) ∧
      (("aru" : String) = "" →
        lookupA t.name "en" = some ("Rrikuhachima" ++ " " ++ "aru")) :=
  ⟨by decide, default_en_name_family_branch (fun s => "R" ++ s) _ (by decide)⟩

/-! ### The refresh step (C7) -/

/-- **C7**: with a derived default translation and an existing entry whose
Japanese name is `tja`, the refresh step overwrites both the Japanese and
English names with the derived defaults and reports dirty exactly when
`tja` differs from the derived Japanese default and is not the protected
sentinel `"初音ミク"`; otherwise (in particular whenever `tja` is the
sentinel, regardless of mismatch) it leaves the entry untouched. -/
theorem refresh_names_iff (nameToId : String → String) (d : CharData)
    (dft t : CharLangData) (tja : String)
    (hdft : get_default_lang_data nameToId d = some dft)
    (_hja : lookupA t.name "ja" = some tja) :
    ∃ dja den, lookupA dft.name "ja" = some dja ∧ lookupA dft.name "en" = some den ∧
      ((refreshNames dft t tja).2 = true ↔ (tja ≠ dja ∧ tja ≠ "初音ミク")) ∧
      ((tja ≠ dja ∧ tja ≠ "初音ミク") →
        lookupA (refreshNames dft t tja).1.name "ja" = some dja ∧
        lookupA (refreshNames dft t tja).1.name "en" = some den) ∧
      (¬(tja ≠ dja ∧ tja ≠ "初音ミク") → refreshNames dft t tja = (t, false)) := by
  obtain ⟨-, -, ja', en', ko', hname⟩ := default_name_shape nameToId d dft hdft
  have hlja : lookupA dft.name "ja" = some ja' := by simp [hname, lookupA]
  have hlen : lookupA dft.name "en" = some en' := by simp [hname, lookupA]
  refine ⟨ja', en', hlja, hlen, ?_⟩
  unfold refreshNames
  rw [hlja, hlen]
  simp only [Option.getD_some]
  by_cases hcond : tja ≠ ja' ∧ tja ≠ "初音ミク"
  · rw [if_pos hcond]
    refine ⟨by simp [hcond], fun _ => ⟨?_, ?_⟩, fun hc => absurd hcond hc⟩
    · rw [lookupA_insertA_ne _ _ _ _ (show ("en" : String) ≠ "ja" by decide)]
      exact lookupA_insertA_self _ _ _
    · exact lookupA_insertA_self _ _ _
  · rw [if_neg hcond]
    exact ⟨by simp [hcond], fun hc => absurd hc hcond, fun _ => rfl⟩

/-- **C7 witness**: concrete refresh at a mismatching, non-sentinel
existing Japanese name. -/
theorem refresh_names_iff_witness :
    get_default_lang_data (fun s => s) ⟨"x", "F", "P", "FR", "PR", "", "", []⟩ =
      some ⟨"x", [("ja", "F P"), ("en", "FR PR"), ("ko", ""), ("zh-cn", ""),
        ("zh-tw", "")], none⟩ ∧
    lookupA [("ja", "old")] "ja" = some "old" ∧
    (∃ dja den,
      lookupA [("ja", "F P"), ("en", "FR PR"), ("ko", ""), ("zh-cn", ""),
        ("zh-tw", "")] "ja" = some dja ∧
      lookupA [("ja", "F P"), ("en", "FR PR"), ("ko", ""), ("zh-cn", ""),
        ("zh-tw", "")] "en" = some den ∧
      ((refreshNames ⟨"x", [("ja", "F P"), ("en", "FR PR"), ("ko", ""), ("zh-cn", ""),
          ("zh-tw", "")], none⟩ ⟨"x", [("ja", "old")], none⟩ "old").2 = true ↔
        (("old" : String) ≠ dja ∧ ("old" : String) ≠ "初音ミク")) ∧
      ((("old" : String) ≠ dja ∧ ("old" : String) ≠ "初音ミク") →
        lookupA (refreshNames ⟨"x", [("ja", "F P"), ("en", "FR PR"), ("ko", ""),
          ("zh-cn", ""), ("zh-tw", "")], none⟩ ⟨"x", [("ja", "old")], none⟩ "old").1.name
          "ja" = some dja ∧
        lookupA (refreshNames ⟨"x", [("ja", "F P"), ("en", "FR PR"), ("ko", ""),
          ("zh-cn", ""), ("zh-tw", "")], none⟩ ⟨"x", [("ja", "old")], none⟩ "old").1.name
          "en" = some den) ∧
      (¬(("old" : String) ≠ dja ∧ ("old" : String) ≠ "初音ミク") →
        refreshNames ⟨"x", [("ja", "F P"), ("en", "FR PR"), ("ko", ""), ("zh-cn", ""),
          ("zh-tw", "")], none⟩ ⟨"x", [("ja", "old")], none⟩ "old" =
          (⟨"x", [("ja", "old")], none⟩, false))) :=
  ⟨by decide, by decide,
    refresh_names_iff (fun s => s) ⟨"x", "F", "P", "FR", "PR", "", "", []⟩
      ⟨"x", [("ja", "F P"), ("en", "FR PR"), ("ko", ""), ("zh-cn", ""),
        ("zh-tw", "")], none⟩
      ⟨"x", [("ja", "old")], none⟩ "old" (by decide) (by decide)⟩

/-! ### Short-name resolution (C6) -/

theorem shortStep_lookup_ne (t : CharLangData) (sn : AList String) (lang key : String)
    (h : lang ≠ key) : lookupA (shortStep t sn lang) key = lookupA sn key := by
  unfold shortStep
  by_cases hm : (match lookupA sn lang with | none => true | some v => v = "") = true
  · rw [if_pos hm]
    exact lookupA_insertA_ne _ _ _ _ h
  · rw [if_neg hm]

theorem foldl_shortStep_ne (t : CharLangData) (langs : List String) (sn : AList String)
    (key : String) (h : key ∉ langs) :
    lookupA (langs.foldl (shortStep t) sn) key = lookupA sn key := by
  induction langs generalizing sn with
  | nil => rfl
  | cons x rest ih =>
    have hx : x ≠ key := fun he => h (he ▸ List.mem_cons_self x rest)
    have hr : key ∉ rest := fun he => h (List.mem_cons_of_mem _ he)
    rw [List.foldl_cons, ih _ hr, shortStep_lookup_ne t sn x key hx]

theorem shortStep_lookup_self (t : CharLangData) (sn : AList String) (lang : String)
    (h : lookupA sn lang = none ∨ lookupA sn lang = some "") :
    lookupA (shortStep t sn lang) lang =
      some (lastSpaceToken ((lookupA t.name lang).getD "")) := by
  unfold shortStep
  have hm : (match lookupA sn lang with | none => true | some v => v = "") = true := by
    rcases h with h | h <;> simp [h]
  rw [if_pos hm]
  exact lookupA_insertA_self _ _ _

theorem foldl_shortStep_mem (t : CharLangData) (langs : List String) (sn : AList String)
    (lang : String) (hmem : lang ∈ langs) (hnodup : langs.Nodup)
    (hmiss : lookupA sn lang = none ∨ lookupA sn lang = some "") :
    lookupA (langs.foldl (shortStep t) sn) lang =
      some (lastSpaceToken ((lookupA t.name lang).getD "")) := by
  induction langs generalizing sn with
  | nil => simp at hmem
  | cons x rest ih =>
    obtain ⟨hx, hrest⟩ := List.nodup_cons.mp hnodup
    rw [List.foldl_cons]
    rcases List.mem_cons.mp hmem with h | h
    · subst h
      rw [foldl_shortStep_ne t rest _ lang hx]
      exact shortStep_lookup_self t sn lang hmiss
    · have hxl : x ≠ lang := fun he => hx (he ▸ h)
      refine ih _ h hrest ?_
      rw [shortStep_lookup_ne t sn x lang hxl]
      exact hmiss

/-- **C6**: for every required language with no explicit short name
(missing from the short-name mapping or mapped to `""`), the resolved
short name is the last space-separated token of that language's display
name. -/
theorem short_name_last_token (t : CharLangData) (lang nm : String)
    (hlang : lang ∈ all_langs)
    (hmiss : lookupA (t.short_name.getD []) lang = none ∨
             lookupA (t.short_name.getD []) lang = some "")
    (hname : lookupA t.name lang = some nm) :
    lookupA (resolveShortName t) lang = some (lastSpaceToken nm) := by
  unfold resolveShortName
  rw [foldl_shortStep_mem t all_langs _ lang hlang (by decide) hmiss, hname]
  rfl

/-- **C6 witness**: name `"Alice Smith"` for `"en"` with no explicit short
name resolves to short name `"Smith"`. -/
theorem short_name_last_token_witness :
    ("en" : String) ∈ all_langs ∧
    (lookupA ((⟨"c", [("en", "Alice Smith")], none⟩ : CharLangData).short_name.getD [])
        "en" = none ∨
      lookupA ((⟨"c", [("en", "Alice Smith")], none⟩ : CharLangData).short_name.getD [])
        "en" = some "") ∧
    lookupA (⟨"c", [("en", "Alice Smith")], none⟩ : CharLangData).name "en" =
      some "Alice Smith" ∧
    lookupA (resolveShortName ⟨"c", [("en", "Alice Smith")], none⟩) "en" =
      some (lastSpaceToken "Alice Smith") ∧
    lastSpaceToken "Alice Smith" = "Smith" :=
  ⟨by decide, Or.inl (by decide), by decide,
    short_name_last_token ⟨"c", [("en", "Alice Smith")], none⟩ "en" "Alice Smith"
      (by decide) (Or.inl (by decide)) (by decide),
    by decide⟩

/-! ### `get_filters` (C3) -/

theorem charLe_total : ∀ l₁ l₂ : List Char, charLe l₁ l₂ = true ∨ charLe l₂ l₁ = true := by
  intro l₁
  induction l₁ with
  | nil => intro l₂; exact Or.inl rfl
  | cons a as ih =>
    intro l₂
    cases l₂ with
    | nil => exact Or.inr rfl
    | cons b bs =>
      by_cases hab : a < b
      · left
        simp [charLe, hab]
      · by_cases hba : b < a
        · right
          simp [charLe, hba]
        · rcases ih bs with h | h
          · left
            simp [charLe, hab, hba, h]
          · right
            simp [charLe, hab, hba, h]

theorem charLe_trans : ∀ l₁ l₂ l₃ : List Char,
    charLe l₁ l₂ = true → charLe l₂ l₃ = true → charLe l₁ l₃ = true := by
  intro l₁
  induction l₁ with
  | nil => intro l₂ l₃ _ _; rfl
  | cons a as ih =>
    intro l₂ l₃ h12 h23
    cases l₂ with
    | nil => exact absurd h12 (by simp [charLe])
    | cons b bs =>
      cases l₃ with
      | nil => exact absurd h23 (by simp [charLe])
      | cons c cs =>
        simp only [charLe] at h12 h23 ⊢
        by_cases hab : a < b
        · by_cases hbc : b < c
          · simp [lt_trans hab hbc]
          · by_cases hcb : c < b
            · rw [if_neg hbc, if_pos hcb] at h23
              exact absurd h23 (by simp)
            · have hbceq : b = c := le_antisymm (not_lt.mp hcb) (not_lt.mp hbc)
              subst hbceq
              simp [hab]
        · by_cases hba : b < a
          · rw [if_neg hab, if_pos hba] at h12
            exact absurd h12 (by simp)
          · have habeq : a = b := le_antisymm (not_lt.mp hba) (not_lt.mp hab)
            subst habeq
            rw [if_neg hab, if_neg hba] at h12
            by_cases hac : a < c
            · simp [hac]
            · by_cases hca : c < a
              · rw [if_neg hac, if_pos hca] at h23
                exact absurd h23 (by simp)
              · rw [if_neg hac, if_neg hca] at h23 ⊢
                exact ih bs cs h12 h23

theorem strLe_total (a b : String) : strLe a b = true ∨ strLe b a = true :=
  charLe_total a.data b.data

theorem strLe_trans (a b c : String) (h1 : strLe a b = true) (h2 : strLe b c = true) :
    strLe a c = true :=
  charLe_trans a.data b.data c.data h1 h2

instance : IsTotal String (fun a b : String => strLe a b = true) :=
  ⟨fun a b => strLe_total a b⟩

instance : IsTrans String (fun a b : String => strLe a b = true) :=
  ⟨fun a b c => strLe_trans a b c⟩

instance : IsTotal GroupLangData (fun a b : GroupLangData => strLe a.id b.id = true) :=
  ⟨fun a b => strLe_total a.id b.id⟩

instance : IsTrans GroupLangData (fun a b : GroupLangData => strLe a.id b.id = true) :=
  ⟨fun a b c => strLe_trans a.id b.id c.id⟩

instance : IsTotal CharLangData
    (fun a b : CharLangData => strLe (strLower a.id) (strLower b.id) = true) :=
  ⟨fun a b => strLe_total (strLower a.id) (strLower b.id)⟩

instance : IsTrans CharLangData
    (fun a b : CharLangData => strLe (strLower a.id) (strLower b.id) = true) :=
  ⟨fun a b c => strLe_trans (strLower a.id) (strLower b.id) (strLower c.id)⟩

/-- The claim-side per-record normalization: every required language is
present, with the empty string substituted for a null source value. -/
def normNameTotal (gp : GroupLangData) : AList String :=
  all_langs.map (fun k =>
    (k, match lookupA gp.name k with
        | some (some v) => v
        | _ => ""))

theorem lookupA_tabulate {α : Type} (f : String → α) (ks : List String) (key : String)
    (h : key ∈ ks) : lookupA (ks.map (fun k => (k, f k))) key = some (f key) := by
  induction ks with
  | nil => simp at h
  | cons k rest ih =>
    by_cases hk : k = key
    · subst hk; simp [lookupA]
    · rcases List.mem_cons.mp h with h' | h'
      · exact absurd h'.symm hk
      · simp [lookupA, hk, ih h']

theorem normEntries_ok (gp : GroupLangData) (ks : List String)
    (h : ∀ k ∈ ks, (lookupA gp.name k).isSome = true) :
    normEntries gp ks = .ok (ks.map (fun k =>
      (k, match lookupA gp.name k with
          | some (some v) => v
          | _ => ""))) := by
  induction ks with
  | nil => rfl
  | cons k rest ih =>
    have hk := h k (List.mem_cons_self _ _)
    cases hv : lookupA gp.name k with
    | none => rw [hv] at hk; simp at hk
    | some v =>
      unfold normEntries
      rw [hv, ih (fun k' hk' => h k' (List.mem_cons_of_mem _ hk'))]
      have : v.getD "" = (match some v with
          | some (some v') => v'
          | _ => "") := by cases v <;> rfl
      simp [List.map_cons, hv, this]

theorem normalizeName_ok (gp : GroupLangData)
    (h : ∀ k ∈ all_langs, (lookupA gp.name k).isSome = true) :
    normalizeName gp = .ok (normNameTotal gp) :=
  normEntries_ok gp all_langs h

theorem normAll_ok (gs : List GroupLangData)
    (h : ∀ gp ∈ gs, ∀ k ∈ all_langs, (lookupA gp.name k).isSome = true) :
    normAll gs = .ok (gs.map normNameTotal) := by
  induction gs with
  | nil => rfl
  | cons gp rest ih =>
    unfold normAll
    rw [normalizeName_ok gp (h gp (List.mem_cons_self _ _)),
      ih (fun gp' hgp' => h gp' (List.mem_cons_of_mem _ hgp'))]
    rfl

/-- **C3 counterexample**: a localized school record missing the `"en"`
key makes `get_filters` raise `KeyError` instead of substituting the
empty string, so the claim's unconditional shape (and its "absent"
clause) fails. -/
theorem get_filters_absent_lang_counterexample :
    exceptErr (get_filters ⟨[⟨"g1", [("ja", some "X")]⟩], [], fun _ => "L"⟩) =
      some RunError.keyError ∧
    exceptOk (get_filters ⟨[⟨"g1", [("ja", some "X")]⟩], [], fun _ => "L"⟩) = false := by
  refine ⟨?_, ?_⟩ <;> decide

/-- **C3** (amended): provided every localized group record carries an
entry (possibly null) for every required language, `get_filters` returns
the schools group then the clubs group, each with ids sorted ascending (a
permutation of the input ids), one name mapping per group containing
every required language (null values replaced by the empty string), and
an all-false selection-flag list parallel to the id list. -/
theorem get_filters_shape (env : FilterEnv)
    (hall : ∀ gp ∈ env.schools ++ env.clubs, ∀ k ∈ all_langs,
      (lookupA gp.name k).isSome = true) :
    ∃ fgs fgc, get_filters env = .ok [fgs, fgc] ∧
      fgs.key = "schools" ∧ fgc.key = "clubs" ∧
      fgs.label = env.typeNames "schools" ∧ fgc.label = env.typeNames "clubs" ∧
      fgs.ids.Sorted (fun a b => strLe a b = true) ∧
      fgc.ids.Sorted (fun a b => strLe a b = true) ∧
      fgs.ids.Perm (env.schools.map (fun gp => gp.id)) ∧
      fgc.ids.Perm (env.clubs.map (fun gp => gp.id)) ∧
      fgs.names = (sortGroups env.schools).map normNameTotal ∧
      fgc.names = (sortGroups env.clubs).map normNameTotal ∧
      (∀ nm ∈ fgs.names ++ fgc.names, ∀ k ∈ all_langs, ∃ v, lookupA nm k = some v) ∧
      fgs.flags = List.replicate fgs.ids.length false ∧
      fgc.flags = List.replicate fgc.ids.length false := by
  have hs : ∀ gp ∈ sortGroups env.schools, ∀ k ∈ all_langs,
      (lookupA gp.name k).isSome = true := by
    intro gp hgp
    exact hall gp (List.mem_append_left _
      ((List.perm_insertionSort _ env.schools).mem_iff.mp hgp))
  have hc : ∀ gp ∈ sortGroups env.clubs, ∀ k ∈ all_langs,
      (lookupA gp.name k).isSome = true := by
    intro gp hgp
    exact hall gp (List.mem_append_right _
      ((List.perm_insertionSort _ env.clubs).mem_iff.mp hgp))
  have hbs : buildFilterGroup "schools" (env.typeNames "schools") env.schools =
      .ok ⟨"schools", env.typeNames "schools",
        (sortGroups env.schools).map (fun gp => gp.id),
        (sortGroups env.schools).map normNameTotal,
        List.replicate (sortGroups env.schools).length false⟩ := by
    unfold buildFilterGroup
    rw [normAll_ok _ hs]
  have hbc : buildFilterGroup "clubs" (env.typeNames "clubs") env.clubs =
      .ok ⟨"clubs", env.typeNames "clubs",
        (sortGroups env.clubs).map (fun gp => gp.id),
        (sortGroups env.clubs).map normNameTotal,
        List.replicate (sortGroups env.clubs).length false⟩ := by
    unfold buildFilterGroup
    rw [normAll_ok _ hc]
  refine ⟨_, _, by unfold get_filters; rw [hbs, hbc], rfl, rfl, rfl, rfl,
    ?_, ?_, ?_, ?_, rfl, rfl, ?_, ?_, ?_⟩
  · have := List.sorted_insertionSort
      (fun a b : GroupLangData => strLe a.id b.id = true) env.schools
    exact (List.pairwise_map).mpr this
  · have := List.sorted_insertionSort
      (fun a b : GroupLangData => strLe a.id b.id = true) env.clubs
    exact (List.pairwise_map).mpr this
  · exact (List.perm_insertionSort _ env.schools).map _
  · exact (List.perm_insertionSort _ env.clubs).map _
  · intro nm hnm k hk
    have hnm' : nm ∈ (sortGroups env.schools).map normNameTotal ++
        (sortGroups env.clubs).map normNameTotal := hnm
    rcases List.mem_append.mp hnm' with h | h <;>
      · obtain ⟨gp, _, rfl⟩ := List.mem_map.mp h
        exact ⟨_, lookupA_tabulate _ all_langs k hk⟩
  · simp
  · simp

/-- **C3 witness**: a concrete two-category input with all languages
present (one null value). -/
theorem get_filters_shape_witness :
    (∀ gp ∈ ([⟨"s2", [("ja", some "j2"), ("en", none), ("ko", some "k2"),
          ("zh-cn", some ""), ("zh-tw", some "t2")]⟩,
        ⟨"s1", [("ja", some "j1"), ("en", some "e1"), ("ko", some "k1"),
          ("zh-cn", some "c1"), ("zh-tw", some "t1")]⟩] : List GroupLangData) ++
        ([⟨"c1", [("ja", some "cj"), ("en", some "ce"), ("ko", some "ck"),
          ("zh-cn", some "cc"), ("zh-tw", some "ct")]⟩] : List GroupLangData),
      ∀ k ∈ all_langs, (lookupA gp.name k).isSome = true) ∧
    (∃ fgs fgc, get_filters ⟨[⟨"s2", [("ja", some "j2"), ("en", none), ("ko", some "k2"),
          ("zh-cn", some ""), ("zh-tw", some "t2")]⟩,
        ⟨"s1", [("ja", some "j1"), ("en", some "e1"), ("ko", some "k1"),
          ("zh-cn", some "c1"), ("zh-tw", some "t1")]⟩],
        [⟨"c1", [("ja", some "cj"), ("en", some "ce"), ("ko", some "ck"),
          ("zh-cn", some "cc"), ("zh-tw", some "ct")]⟩], fun _ => "L"⟩ = .ok [fgs, fgc] ∧
      fgs.key = "schools" ∧ fgc.key = "clubs" ∧
      fgs.label = "L" ∧ fgc.label = "L" ∧
      fgs.ids.Sorted (fun a b => strLe a b = true) ∧
      fgc.ids.Sorted (fun a b => strLe a b = true) ∧
      fgs.ids.Perm ["s2", "s1"] ∧ fgc.ids.Perm ["c1"] ∧
      fgs.names = (sortGroups [⟨"s2", [("ja", some "j2"), ("en", none), ("ko", some "k2"),
          ("zh-cn", some ""), ("zh-tw", some "t2")]⟩,
        ⟨"s1", [("ja", some "j1"), ("en", some "e1"), ("ko", some "k1"),
          ("zh-cn", some "c1"), ("zh-tw", some "t1")]⟩]).map normNameTotal ∧
      fgc.names = (sortGroups [⟨"c1", [("ja", some "cj"), ("en", some "ce"),
          ("ko", some "ck"), ("zh-cn", some "cc"), ("zh-tw", some "ct")]⟩]).map
          normNameTotal ∧
      (∀ nm ∈ fgs.names ++ fgc.names, ∀ k ∈ all_langs, ∃ v, lookupA nm k = some v) ∧
      fgs.flags = List.replicate fgs.ids.length false ∧
      fgc.flags = List.replicate fgc.ids.length false) :=
  ⟨by decide, by
    have h := get_filters_shape ⟨[⟨"s2", [("ja", some "j2"), ("en", none),
        ("ko", some "k2"), ("zh-cn", some ""), ("zh-tw", some "t2")]⟩,
      ⟨"s1", [("ja", some "j1"), ("en", some "e1"), ("ko", some "k1"),
        ("zh-cn", some "c1"), ("zh-tw", some "t1")]⟩],
      [⟨"c1", [("ja", some "cj"), ("en", some "ce"), ("ko", some "ck"),
        ("zh-cn", some "cc"), ("zh-tw", some "ct")]⟩], fun _ => "L"⟩ (by decide)
    exact h⟩

/-! ### Invariants of the avatar-file loop -/

/-- The canonical names successfully produced by a list of image
references (exclusions skipped, `ValueError` cases dropped). -/
def canonList (excl : List String) (mappings : AList String) (l : List String) :
    List String :=
  l.filterMap (fun img =>
    if basename img ∈ excl then none else canonicalize mappings (basename img))

theorem processImgs_ok (ctx : Ctx) (mappings : AList String) (l : List String)
    (imgs : List String) (avatar : AList String) (cfg : List String)
    (imgs' : List String) (avatar' : AList String) (cfg' : List String)
    (h : processImgs ctx mappings l (imgs, avatar, cfg) = .ok (imgs', avatar', cfg')) :
    imgs' = imgs ++ canonList ctx.excluded mappings l ∧
    (∀ k ∈ keysA avatar, k ∈ keysA avatar') ∧
    (∀ img ∈ l, basename img ∉ ctx.excluded →
      ∃ n, canonicalize mappings (basename img) = some n ∧ n ≠ "" ∧
        pathOf ctx img ∈ ctx.fs ∧ n ∉ keysA avatar ∧ n ∈ keysA avatar') := by
  induction l generalizing imgs avatar cfg with
  | nil =>
    simp only [processImgs, Except.ok.injEq, Prod.mk.injEq] at h
    obtain ⟨h1, h2, h3⟩ := h
    subst h1; subst h2
    exact ⟨by simp [canonList], fun k hk => hk, by simp⟩
  | cons img rest ih =>
    unfold processImgs at h
    by_cases hex : basename img ∈ ctx.excluded
    · rw [if_pos hex] at h
      obtain ⟨h1, h2, h3⟩ := ih imgs avatar cfg h
      refine ⟨by simp [canonList, hex] at h1 ⊢; exact h1, h2, ?_⟩
      intro i hi hnex
      rcases List.mem_cons.mp hi with rfl | hi'
      · exact absurd hex hnex
      · exact h3 i hi' hnex
    · rw [if_neg hex] at h
      cases hc : canonicalize mappings (basename img) with
      | none => simp [hc] at h
      | some n =>
        simp only [hc] at h
        by_cases hn : n = ""
        · rw [if_pos hn] at h; simp at h
        · rw [if_neg hn] at h
          by_cases hdup : (lookupA avatar n).isSome = true
          · rw [if_pos hdup] at h; simp at h
          · rw [if_neg hdup] at h
            by_cases hfs : pathOf ctx img ∈ ctx.fs
            · rw [if_pos hfs] at h
              obtain ⟨h1, h2, h3⟩ := ih _ _ _ h
              have hfresh : n ∉ keysA avatar := by
                rw [← lookupA_eq_none_iff]
                exact Option.not_isSome_iff_eq_none.mp hdup
              have hmemkeys : n ∈ keysA (insertA avatar n (pathOf ctx img)) :=
                (mem_keysA_insertA avatar n _ n).mpr (Or.inr rfl)
              have hcanon : canonList ctx.excluded mappings (img :: rest) =
                  n :: canonList ctx.excluded mappings rest := by
                simp [canonList, hex, hc]
              refine ⟨?_, ?_, ?_⟩
              · rw [hcanon, h1, List.append_assoc]
                rfl
              · intro k hk
                exact h2 k ((mem_keysA_insertA avatar n _ k).mpr (Or.inl hk))
              · intro i hi hnex
                rcases List.mem_cons.mp hi with rfl | hi'
                · exact ⟨n, hc, hn, hfs, hfresh, h2 n hmemkeys⟩
                · obtain ⟨n', hc', hn', hfs', hfresh', hmem'⟩ := h3 i hi' hnex
                  refine ⟨n', hc', hn', hfs', ?_, hmem'⟩
                  intro hk
                  exact hfresh' ((mem_keysA_insertA avatar n _ n').mpr (Or.inl hk))
            · rw [if_neg hfs] at h; simp at h

/-! ### Inversion of one character-loop iteration -/

theorem processChar_inv (ctx : Ctx) (mappings : AList String) (st : St) (d : CharData)
    (st' : St) (h : processChar ctx mappings st d = .ok st') :
    ∃ dft t' b imgs,
      get_default_lang_data ctx.nameToId d = some dft ∧
      transStep st.translations d dft = .ok (t', st'.translations, b) ∧
      processImgs ctx mappings d.image_files ([], st.avatar, st.imgConfig) =
        .ok (imgs, st'.avatar, st'.imgConfig) ∧
      st'.dirty = (st.dirty || b) ∧
      st'.result = st.result ++ [charOf ctx d t' imgs] ∧
      st'.noSchool = (if (ctx.schoolData.filter (fun gp => d.id ∈ gp.members)).length = 0
        then st.noSchool ++ [charOf ctx d t' imgs] else st.noSchool) ∧
      st'.noClub = (if (ctx.clubData.filter (fun gp => d.id ∈ gp.members)).length = 0
        then st.noClub ++ [charOf ctx d t' imgs] else st.noClub) := by
  unfold processChar at h
  cases hdft : get_default_lang_data ctx.nameToId d with
  | none => simp [hdft] at h
  | some dft =>
    simp only [hdft] at h
    cases hts : transStep st.translations d dft with
    | error e => simp [hts] at h
    | ok trip =>
      obtain ⟨t', trans', b⟩ := trip
      simp only [hts] at h
      cases hpi : processImgs ctx mappings d.image_files ([], st.avatar, st.imgConfig) with
      | error e => simp [hpi] at h
      | ok trip2 =>
        obtain ⟨imgs, avatar', cfg'⟩ := trip2
        simp only [hpi] at h
        injection h with h'
        subst h'
        exact ⟨dft, t', b, imgs, rfl, hts, rfl, rfl, rfl, rfl, rfl⟩

/-! ### Invariants of the character loop -/

theorem charLoop_avatar_mono (ctx : Ctx) (mappings : AList String) (l : List CharData) :
    ∀ st st', charLoop ctx mappings st l = .ok st' →
      ∀ k ∈ keysA st.avatar, k ∈ keysA st'.avatar := by
  induction l with
  | nil =>
    intro st st' h k hk
    simp only [charLoop, Except.ok.injEq] at h
    rw [← h]
    exact hk
  | cons d rest ih =>
    intro st st' h k hk
    unfold charLoop at h
    cases hpc : processChar ctx mappings st d with
    | error e => simp [hpc] at h
    | ok st1 =>
      simp only [hpc] at h
      obtain ⟨dft, t', b, imgs, -, -, hpi, -⟩ := processChar_inv ctx mappings st d st1 hpc
      obtain ⟨-, h2, -⟩ := processImgs_ok ctx mappings _ _ _ _ _ _ _ hpi
      exact ih st1 st' h k (h2 k hk)

theorem charLoop_sound (ctx : Ctx) (mappings : AList String) (l : List CharData) :
    ∀ st st', charLoop ctx mappings st l = .ok st' →
      ∀ d ∈ l, ∀ img ∈ d.image_files, basename img ∉ ctx.excluded →
        ∃ n, canonicalize mappings (basename img) = some n ∧ n ≠ "" ∧
          pathOf ctx img ∈ ctx.fs := by
  induction l with
  | nil => intro st st' h d hd; simp at hd
  | cons d0 rest ih =>
    intro st st' h d hd img himg hnex
    unfold charLoop at h
    cases hpc : processChar ctx mappings st d0 with
    | error e => simp [hpc] at h
    | ok st1 =>
      simp only [hpc] at h
      rcases List.mem_cons.mp hd with rfl | hd'
      · obtain ⟨dft, t', b, imgs, -, -, hpi, -⟩ := processChar_inv ctx mappings st d st1 hpc
        obtain ⟨-, -, h3⟩ := processImgs_ok ctx mappings _ _ _ _ _ _ _ hpi
        obtain ⟨n, hc, hn, hfs, -, -⟩ := h3 img himg hnex
        exact ⟨n, hc, hn, hfs⟩
      · exact ih st1 st' h d hd' img himg hnex

theorem charLoop_fresh (ctx : Ctx) (mappings : AList String) (l : List CharData) :
    ∀ st st', charLoop ctx mappings st l = .ok st' →
      ∀ d ∈ l, ∀ n ∈ canonList ctx.excluded mappings d.image_files,
        n ∉ keysA st.avatar ∧ n ∈ keysA st'.avatar := by
  induction l with
  | nil => intro st st' h d hd; simp at hd
  | cons d0 rest ih =>
    intro st st' h d hd n hcn
    unfold charLoop at h
    cases hpc : processChar ctx mappings st d0 with
    | error e => simp [hpc] at h
    | ok st1 =>
      simp only [hpc] at h
      obtain ⟨dft, t', b, imgs, -, -, hpi, -⟩ := processChar_inv ctx mappings st d0 st1 hpc
      obtain ⟨-, h2, h3⟩ := processImgs_ok ctx mappings _ _ _ _ _ _ _ hpi
      rcases List.mem_cons.mp hd with rfl | hd'
      · obtain ⟨img, himg, hf⟩ := List.mem_filterMap.mp hcn
        by_cases hex : basename img ∈ ctx.excluded
        · rw [if_pos hex] at hf; exact absurd hf (by simp)
        · rw [if_neg hex] at hf
          obtain ⟨n', hc', hn', hfs', hfresh', hmem'⟩ := h3 img himg hex
          rw [hc'] at hf
          injection hf with hf'
          rw [← hf']
          exact ⟨hfresh', charLoop_avatar_mono ctx mappings rest st1 st' h n' hmem'⟩
      · obtain ⟨hfr, hmem⟩ := ih st1 st' h d hd' n hcn
        refine ⟨fun hk => hfr (h2 n hk), hmem⟩

theorem charLoop_uniq (ctx : Ctx) (mappings : AList String) (l : List CharData) :
    ∀ st st', charLoop ctx mappings st l = .ok st' →
      ∀ a ∈ l, ∀ b ∈ l, ∀ n, n ∈ canonList ctx.excluded mappings a.image_files →
        n ∈ canonList ctx.excluded mappings b.image_files → a = b := by
  induction l with
  | nil => intro st st' h a ha; simp at ha
  | cons d0 rest ih =>
    intro st st' h a ha b hb n hna hnb
    unfold charLoop at h
    cases hpc : processChar ctx mappings st d0 with
    | error e => simp [hpc] at h
    | ok st1 =>
      simp only [hpc] at h
      obtain ⟨dft, t', bb, imgs, -, -, hpi, -⟩ := processChar_inv ctx mappings st d0 st1 hpc
      obtain ⟨-, h2, h3⟩ := processImgs_ok ctx mappings _ _ _ _ _ _ _ hpi
      have hcov : ∀ m ∈ canonList ctx.excluded mappings d0.image_files,
          m ∈ keysA st1.avatar := by
        intro m hm
        obtain ⟨img, himg, hf⟩ := List.mem_filterMap.mp hm
        by_cases hex : basename img ∈ ctx.excluded
        · rw [if_pos hex] at hf; exact absurd hf (by simp)
        · rw [if_neg hex] at hf
          obtain ⟨n', hc', -, -, -, hmem'⟩ := h3 img himg hex
          rw [hc'] at hf
          injection hf with hf'
          exact hf' ▸ hmem'
      rcases List.mem_cons.mp ha with rfl | ha' <;> rcases List.mem_cons.mp hb with heq | hb'
      · exact heq.symm
      · exact absurd (hcov n hna) ((charLoop_fresh ctx mappings rest st1 st' h b hb' n hnb).1)
      · subst heq
        exact absurd (hcov n hnb) ((charLoop_fresh ctx mappings rest st1 st' h a ha' n hna).1)
      · exact ih st1 st' h a ha' b hb' n hna hnb

theorem charLoop_diag_mono (ctx : Ctx) (mappings : AList String) (l : List CharData) :
    ∀ st st', charLoop ctx mappings st l = .ok st' →
      (∀ c ∈ st.noSchool, c ∈ st'.noSchool) ∧ (∀ c ∈ st.noClub, c ∈ st'.noClub) := by
  induction l with
  | nil =>
    intro st st' h
    simp only [charLoop, Except.ok.injEq] at h
    rw [← h]
    exact ⟨fun c hc => hc, fun c hc => hc⟩
  | cons d rest ih =>
    intro st st' h
    unfold charLoop at h
    cases hpc : processChar ctx mappings st d with
    | error e => simp [hpc] at h
    | ok st1 =>
      simp only [hpc] at h
      obtain ⟨dft, t', b, imgs, -, -, -, -, -, hns, hnc⟩ :=
        processChar_inv ctx mappings st d st1 hpc
      obtain ⟨ihs, ihc⟩ := ih st1 st' h
      constructor
      · intro c hc
        refine ihs c ?_
        rw [hns]
        split
        · exact List.mem_append_left _ hc
        · exact hc
      · intro c hc
        refine ihc c ?_
        rw [hnc]
        split
        · exact List.mem_append_left _ hc
        · exact hc

theorem charLoop_noschool (ctx : Ctx) (mappings : AList String) (l : List CharData) :
    ∀ st st', charLoop ctx mappings st l = .ok st' →
      ∀ d ∈ l, (ctx.schoolData.filter (fun gp => d.id ∈ gp.members)).length = 0 →
        ∃ c ∈ st'.noSchool,
          c.images = sortStrings (canonList ctx.excluded mappings d.image_files) := by
  induction l with
  | nil => intro st st' h d hd; simp at hd
  | cons d0 rest ih =>
    intro st st' h d hd hflt
    unfold charLoop at h
    cases hpc : processChar ctx mappings st d0 with
    | error e => simp [hpc] at h
    | ok st1 =>
      simp only [hpc] at h
      rcases List.mem_cons.mp hd with rfl | hd'
      · obtain ⟨dft, t', b, imgs, -, -, hpi, -, -, hns, -⟩ :=
          processChar_inv ctx mappings st d st1 hpc
        obtain ⟨h1, -, -⟩ := processImgs_ok ctx mappings _ _ _ _ _ _ _ hpi
        have hmem1 : charOf ctx d t' imgs ∈ st1.noSchool := by
          rw [hns, if_pos hflt]
          exact List.mem_append_right _ (List.mem_singleton.mpr rfl)
        refine ⟨charOf ctx d t' imgs,
          (charLoop_diag_mono ctx mappings rest st1 st' h).1 _ hmem1, ?_⟩
        show sortStrings imgs = _
        rw [h1, List.nil_append]
      · exact ih st1 st' h d hd' hflt

theorem charLoop_noclub (ctx : Ctx) (mappings : AList String) (l : List CharData) :
    ∀ st st', charLoop ctx mappings st l = .ok st' →
      ∀ d ∈ l, (ctx.clubData.filter (fun gp => d.id ∈ gp.members)).length = 0 →
        ∃ c ∈ st'.noClub,
          c.images = sortStrings (canonList ctx.excluded mappings d.image_files) := by
  induction l with
  | nil => intro st st' h d hd; simp at hd
  | cons d0 rest ih =>
    intro st st' h d hd hflt
    unfold charLoop at h
    cases hpc : processChar ctx mappings st d0 with
    | error e => simp [hpc] at h
    | ok st1 =>
      simp only [hpc] at h
      rcases List.mem_cons.mp hd with rfl | hd'
      · obtain ⟨dft, t', b, imgs, -, -, hpi, -, -, -, hnc⟩ :=
          processChar_inv ctx mappings st d st1 hpc
        obtain ⟨h1, -, -⟩ := processImgs_ok ctx mappings _ _ _ _ _ _ _ hpi
        have hmem1 : charOf ctx d t' imgs ∈ st1.noClub := by
          rw [hnc, if_pos hflt]
          exact List.mem_append_right _ (List.mem_singleton.mpr rfl)
        refine ⟨charOf ctx d t' imgs,
          (charLoop_diag_mono ctx mappings rest st1 st' h).2 _ hmem1, ?_⟩
        show sortStrings imgs = _
        rw [h1, List.nil_append]
      · exact ih st1 st' h d hd' hflt

theorem reports_ok_images (cs : List Character) (rs : List String)
    (h : reports cs = .ok rs) : ∀ c ∈ cs, c.images ≠ [] := by
  induction cs generalizing rs with
  | nil => intro c hc; simp at hc
  | cons c0 rest ih =>
    intro c hc
    unfold reports at h
    cases hr : reportFor c0 with
    | error e => simp [hr] at h
    | ok line =>
      simp only [hr] at h
      cases hrr : reports rest with
      | error e => simp [hrr] at h
      | ok lines =>
        rcases List.mem_cons.mp hc with rfl | hc'
        · unfold reportFor at hr
          cases hja : lookupA c.names "ja" with
          | none => simp [hja] at hr
          | some ja =>
            simp only [hja] at hr
            cases hi : c.images with
            | nil => rw [hi] at hr; simp at hr
            | cons i0 irest => simp [hi]
        · exact ih lines hrr c hc'

/-- Inversion of a successful `get_chars` run. -/
theorem get_chars_inv (env : Env) (out : RunOutput) (h : get_chars env = .ok out) :
    ∃ st, charLoop (ctxOf env) (legacyMappings env.legacyRaw) (initSt env)
      env.charData = .ok st ∧
      out.finalTrans = st.translations ∧
      out.storeWrite = (if st.dirty = true
        then some (sortByIdLower (st.translations.map Prod.snd)) else none) ∧
      reports st.noSchool = .ok out.noSchoolReport ∧
      reports st.noClub = .ok out.noClubReport ∧
      out.chars = st.result ∧ out.avatar = st.avatar ∧ out.imgConfig = st.imgConfig := by
  unfold get_chars at h
  cases hloop : charLoop (ctxOf env) (legacyMappings env.legacyRaw) (initSt env)
      env.charData with
  | error e => simp [hloop] at h
  | ok st =>
    simp only [hloop] at h
    cases hrs : reports st.noSchool with
    | error e => simp [hrs] at h
    | ok rs =>
      simp only [hrs] at h
      cases hrc : reports st.noClub with
      | error e => simp [hrc] at h
      | ok rc =>
        simp only [hrc] at h
        injection h with h'
        subst h'
        exact ⟨st, rfl, rfl, rfl, hrs, hrc, rfl, rfl, rfl⟩

/-! ### C1, C9, C10: fatal aborts of `get_chars` -/

/-- **C1**: a run of `get_chars` cannot finish successfully when two
distinct characters canonicalize image references to the same canonical
name, when a reference canonicalizes to the empty name, or when a
non-excluded reference's resolved path is missing from disk — the run
aborts fatally and no catalog output is produced. -/
theorem get_chars_aborts_on_image_violation (env : Env)
    (h :
      (∃ c1 ∈ env.charData, ∃ c2 ∈ env.charData, c1.id ≠ c2.id ∧
        ∃ n ∈ canonList env.excluded (legacyMappings env.legacyRaw) c1.image_files,
          n ∈ canonList env.excluded (legacyMappings env.legacyRaw) c2.image_files) ∨
      (∃ c ∈ env.charData,
        "" ∈ canonList env.excluded (legacyMappings env.legacyRaw) c.image_files) ∨
      (∃ c ∈ env.charData, ∃ img ∈ c.image_files,
        basename img ∉ env.excluded ∧ pathOf (ctxOf env) img ∉ env.fs)) :
    exceptOk (get_chars env) = false := by
  cases hg : get_chars env with
  | error e => rfl
  | ok out =>
    exfalso
    obtain ⟨st, hloop, -⟩ := get_chars_inv env out hg
    rcases h with ⟨c1, hc1, c2, hc2, hne, n, hn1, hn2⟩ | ⟨c, hc, hmem⟩ |
      ⟨c, hc, img, himg, hnex, hfs⟩
    · exact hne (congrArg CharData.id
        (charLoop_uniq (ctxOf env) _ env.charData _ _ hloop c1 hc1 c2 hc2 n hn1 hn2))
    · obtain ⟨img, himg, hf⟩ := List.mem_filterMap.mp hmem
      by_cases hex : basename img ∈ env.excluded
      · rw [if_pos hex] at hf; simp at hf
      · rw [if_neg hex] at hf
        obtain ⟨n, hcn, hne', -⟩ :=
          charLoop_sound (ctxOf env) _ env.charData _ _ hloop c hc img himg hex
        rw [hcn] at hf
        injection hf with hf'
        exact hne' hf'
    · obtain ⟨n, -, -, hfs'⟩ :=
        charLoop_sound (ctxOf env) _ env.charData _ _ hloop c hc img himg hnex
      exact hfs hfs'

/-- **C1 witness**: two characters with distinct ids whose portraits both
canonicalize to `"Dup"` make the run abort (at the duplicate assert). -/
theorem get_chars_aborts_on_image_violation_witness :
    ((∃ c1 ∈ [(⟨"a", "", "pa", "", "", "", "", ["x/Portrait_Dup"]⟩ : CharData),
        ⟨"b", "", "pb", "", "", "", "", ["y/Portrait_Dup"]⟩],
      ∃ c2 ∈ [(⟨"a", "", "pa", "", "", "", "", ["x/Portrait_Dup"]⟩ : CharData),
        ⟨"b", "", "pb", "", "", "", "", ["y/Portrait_Dup"]⟩], c1.id ≠ c2.id ∧
        ∃ n ∈ canonList [] (legacyMappings []) c1.image_files,
          n ∈ canonList [] (legacyMappings []) c2.image_files) ∨
      (∃ c ∈ [(⟨"a", "", "pa", "", "", "", "", ["x/Portrait_Dup"]⟩ : CharData),
        ⟨"b", "", "pb", "", "", "", "", ["y/Portrait_Dup"]⟩],
        "" ∈ canonList [] (legacyMappings []) c.image_files) ∨
      (∃ c ∈ [(⟨"a", "", "pa", "", "", "", "", ["x/Portrait_Dup"]⟩ : CharData),
        ⟨"b", "", "pb", "", "", "", "", ["y/Portrait_Dup"]⟩], ∃ img ∈ c.image_files,
        basename img ∉ ([] : List String) ∧
          pathOf (ctxOf ⟨"r", [⟨"a", "", "pa", "", "", "", "", ["x/Portrait_Dup"]⟩,
            ⟨"b", "", "pb", "", "", "", "", ["y/Portrait_Dup"]⟩], [], [], [], [], [],
            ["r/assets/x/Portrait_Dup.png", "r/assets/y/Portrait_Dup.png"],
            fun s => s⟩) img ∉ ["r/assets/x/Portrait_Dup.png",
              "r/assets/y/Portrait_Dup.png"])) ∧
    exceptOk (get_chars ⟨"r", [⟨"a", "", "pa", "", "", "", "", ["x/Portrait_Dup"]⟩,
      ⟨"b", "", "pb", "", "", "", "", ["y/Portrait_Dup"]⟩], [], [], [], [], [],
      ["r/assets/x/Portrait_Dup.png", "r/assets/y/Portrait_Dup.png"],
      fun s => s⟩) = false ∧
    exceptErr (get_chars ⟨"r", [⟨"a", "", "pa", "", "", "", "", ["x/Portrait_Dup"]⟩,
      ⟨"b", "", "pb", "", "", "", "", ["y/Portrait_Dup"]⟩], [], [], [], [], [],
      ["r/assets/x/Portrait_Dup.png", "r/assets/y/Portrait_Dup.png"],
      fun s => s⟩) = some RunError.assertDup :=
  ⟨Or.inl (by decide),
    get_chars_aborts_on_image_violation ⟨"r",
      [⟨"a", "", "pa", "", "", "", "", ["x/Portrait_Dup"]⟩,
       ⟨"b", "", "pb", "", "", "", "", ["y/Portrait_Dup"]⟩], [], [], [], [], [],
      ["r/assets/x/Portrait_Dup.png", "r/assets/y/Portrait_Dup.png"], fun s => s⟩
      (Or.inl (by decide)),
    by decide⟩

/-- **C9**: a non-excluded image basename that is not a legacy-mapping
key and does not contain the `"Portrait_"` marker makes canonicalization
raise an uncaught `ValueError` — the run cannot finish successfully. -/
theorem get_chars_valueerror_on_missing_marker (env : Env)
    (h : ∃ c ∈ env.charData, ∃ img ∈ c.image_files, basename img ∉ env.excluded ∧
      lookupA (legacyMappings env.legacyRaw) (basename img) = none ∧
      stripAfterPortrait (basename img) = none) :
    exceptOk (get_chars env) = false := by
  cases hg : get_chars env with
  | error e => rfl
  | ok out =>
    exfalso
    obtain ⟨st, hloop, -⟩ := get_chars_inv env out hg
    obtain ⟨c, hc, img, himg, hnex, hl, hs⟩ := h
    obtain ⟨n, hcn, -, -⟩ :=
      charLoop_sound (ctxOf env) _ env.charData _ _ hloop c hc img himg hnex
    unfold canonicalize at hcn
    rw [hl, hs] at hcn
    simp at hcn

/-- **C9 witness**: a basename without the `"Portrait_"` marker aborts
the run with the `ValueError`. -/
theorem get_chars_valueerror_on_missing_marker_witness :
    (∃ c ∈ [(⟨"v", "", "pv", "", "", "", "", ["z/NoMarker"]⟩ : CharData)],
      ∃ img ∈ c.image_files, basename img ∉ ([] : List String) ∧
        lookupA (legacyMappings []) (basename img) = none ∧
        stripAfterPortrait (basename img) = none) ∧
    exceptOk (get_chars ⟨"r", [⟨"v", "", "pv", "", "", "", "", ["z/NoMarker"]⟩],
      [], [], [], [], [], [], fun s => s⟩) = false ∧
    exceptErr (get_chars ⟨"r", [⟨"v", "", "pv", "", "", "", "", ["z/NoMarker"]⟩],
      [], [], [], [], [], [], fun s => s⟩) = some RunError.valueError :=
  ⟨by decide,
    get_chars_valueerror_on_missing_marker ⟨"r",
      [⟨"v", "", "pv", "", "", "", "", ["z/NoMarker"]⟩], [], [], [], [], [], [],
      fun s => s⟩ (by decide),
    by decide⟩

/-- **C10**: a character with an empty resolved image list (for instance
when all of its image references are excluded) that has no school (or no
club) membership makes the diagnostic-report generation fail on its first
image — the run cannot finish successfully. -/
theorem report_indexerror_on_empty_images (env : Env)
    (h : ∃ d ∈ env.charData,
      canonList env.excluded (legacyMappings env.legacyRaw) d.image_files = [] ∧
      ((∀ gp ∈ env.schoolData, d.id ∉ gp.members) ∨
       (∀ gp ∈ env.clubData, d.id ∉ gp.members))) :
    exceptOk (get_chars env) = false := by
  cases hg : get_chars env with
  | error e => rfl
  | ok out =>
    exfalso
    obtain ⟨st, hloop, -, -, hrs, hrc, -⟩ := get_chars_inv env out hg
    obtain ⟨d, hd, hcan, hside⟩ := h
    rcases hside with hs | hs
    · have hflt : (env.schoolData.filter (fun gp => d.id ∈ gp.members)).length = 0 := by
        rw [List.length_eq_zero, List.filter_eq_nil_iff]
        intro gp hgp
        simpa using hs gp hgp
      obtain ⟨c, hcmem, hcimg⟩ :=
        charLoop_noschool (ctxOf env) _ env.charData _ _ hloop d hd hflt
      have himgs : c.images = [] := by
        rw [hcimg]
        show sortStrings (canonList env.excluded (legacyMappings env.legacyRaw)
          d.image_files) = []
        rw [hcan]
        rfl
      exact reports_ok_images st.noSchool out.noSchoolReport hrs c hcmem himgs
    · have hflt : (env.clubData.filter (fun gp => d.id ∈ gp.members)).length = 0 := by
        rw [List.length_eq_zero, List.filter_eq_nil_iff]
        intro gp hgp
        simpa using hs gp hgp
      obtain ⟨c, hcmem, hcimg⟩ :=
        charLoop_noclub (ctxOf env) _ env.charData _ _ hloop d hd hflt
      have himgs : c.images = [] := by
        rw [hcimg]
        show sortStrings (canonList env.excluded (legacyMappings env.legacyRaw)
          d.image_files) = []
        rw [hcan]
        rfl
      exact reports_ok_images st.noClub out.noClubReport hrc c hcmem himgs

/-- **C10 witness**: one character whose only portrait is excluded, and no
group memberships — the run aborts with the `IndexError` of the report. -/
theorem report_indexerror_on_empty_images_witness :
    (∃ d ∈ [(⟨"e", "", "pe", "", "", "", "", ["w/Portrait_E"]⟩ : CharData)],
      canonList ["Portrait_E"] (legacyMappings []) d.image_files = [] ∧
      ((∀ gp ∈ ([] : List GroupData), d.id ∉ gp.members) ∨
       (∀ gp ∈ ([] : List GroupData), d.id ∉ gp.members))) ∧
    exceptOk (get_chars ⟨"r", [⟨"e", "", "pe", "", "", "", "", ["w/Portrait_E"]⟩],
      [], [], [], ["Portrait_E"], [], [], fun s => s⟩) = false ∧
    exceptErr (get_chars ⟨"r", [⟨"e", "", "pe", "", "", "", "", ["w/Portrait_E"]⟩],
      [], [], [], ["Portrait_E"], [], [], fun s => s⟩) = some RunError.indexError :=
  ⟨by decide,
    report_indexerror_on_empty_images ⟨"r",
      [⟨"e", "", "pe", "", "", "", "", ["w/Portrait_E"]⟩], [], [], [], ["Portrait_E"],
      [], [], fun s => s⟩ (by decide),
    by decide⟩

/-! ### Lemmas about the backfill fold -/

theorem backStep_present (dft : CharLangData) (acc : CharLangData × Bool)
    (lang key : String) (v : String) (h : lookupA acc.1.name key = some v) :
    lookupA (backStep dft acc lang).1.name key = some v := by
  unfold backStep
  cases hl : lookupA acc.1.name lang with
  | some w => exact h
  | none =>
    have hne : lang ≠ key := by
      intro he; subst he; rw [h] at hl; exact Option.noConfusion hl
    show lookupA (insertA acc.1.name lang _) key = some v
    rw [lookupA_insertA_ne _ _ _ _ hne]
    exact h

theorem backStep_self_some (dft : CharLangData) (acc : CharLangData × Bool)
    (lang : String) : (lookupA (backStep dft acc lang).1.name lang).isSome = true := by
  unfold backStep
  cases hl : lookupA acc.1.name lang with
  | some w => rw [hl]; rfl
  | none =>
    show (lookupA (insertA acc.1.name lang _) lang).isSome = true
    rw [lookupA_insertA_self]
    rfl

theorem backStep_id_short (dft : CharLangData) (acc : CharLangData × Bool)
    (lang : String) : (backStep dft acc lang).1.id = acc.1.id ∧
      (backStep dft acc lang).1.short_name = acc.1.short_name := by
  unfold backStep
  cases hl : lookupA acc.1.name lang with
  | some w => exact ⟨rfl, rfl⟩
  | none => exact ⟨rfl, rfl⟩

theorem backStep_dirty_mono (dft : CharLangData) (acc : CharLangData × Bool)
    (lang : String) (h : acc.2 = true) : (backStep dft acc lang).2 = true := by
  unfold backStep
  cases hl : lookupA acc.1.name lang with
  | some w => exact h
  | none => rfl

theorem backStep_false (dft : CharLangData) (acc : CharLangData × Bool) (lang : String)
    (h : (backStep dft acc lang).2 = false) : backStep dft acc lang = acc := by
  unfold backStep at h ⊢
  cases hl : lookupA acc.1.name lang with
  | some w => rfl
  | none => rw [hl] at h; exact absurd h (by simp)

theorem bf_present (dft : CharLangData) (langs : List String) :
    ∀ acc key v, lookupA acc.1.name key = some v →
      lookupA (langs.foldl (backStep dft) acc).1.name key = some v := by
  induction langs with
  | nil => intro acc key v h; exact h
  | cons lang rest ih =>
    intro acc key v h
    exact ih _ key v (backStep_present dft acc lang key v h)

theorem bf_isSome_mem (dft : CharLangData) (langs : List String) :
    ∀ acc lang, lang ∈ langs →
      (lookupA (langs.foldl (backStep dft) acc).1.name lang).isSome = true := by
  induction langs with
  | nil => intro acc lang h; simp at h
  | cons l0 rest ih =>
    intro acc lang h
    rcases List.mem_cons.mp h with rfl | h'
    · rw [List.foldl_cons]
      have := backStep_self_some dft acc lang
      cases hv : lookupA (backStep dft acc lang).1.name lang with
      | none => rw [hv] at this; exact absurd this (by simp)
      | some v =>
        rw [bf_present dft rest _ lang v hv]
        rfl
    · exact ih _ lang h'

theorem bf_noop (dft : CharLangData) (langs : List String) :
    ∀ acc, (∀ lang ∈ langs, (lookupA acc.1.name lang).isSome = true) →
      langs.foldl (backStep dft) acc = acc := by
  induction langs with
  | nil => intro acc _; rfl
  | cons l0 rest ih =>
    intro acc h
    have h0 := h l0 (List.mem_cons_self _ _)
    have hstep : backStep dft acc l0 = acc := by
      unfold backStep
      cases hl : lookupA acc.1.name l0 with
      | some w => rfl
      | none => rw [hl] at h0; exact absurd h0 (by simp)
    rw [List.foldl_cons, hstep]
    exact ih acc (fun lang hl => h lang (List.mem_cons_of_mem _ hl))

theorem bf_id_short (dft : CharLangData) (langs : List String) :
    ∀ acc, (langs.foldl (backStep dft) acc).1.id = acc.1.id ∧
      (langs.foldl (backStep dft) acc).1.short_name = acc.1.short_name := by
  induction langs with
  | nil => intro acc; exact ⟨rfl, rfl⟩
  | cons l0 rest ih =>
    intro acc
    rw [List.foldl_cons]
    obtain ⟨h1, h2⟩ := ih (backStep dft acc l0)
    obtain ⟨h3, h4⟩ := backStep_id_short dft acc l0
    exact ⟨h1.trans h3, h2.trans h4⟩

theorem bf_dirty_mono (dft : CharLangData) (langs : List String) :
    ∀ acc, acc.2 = true → (langs.foldl (backStep dft) acc).2 = true := by
  induction langs with
  | nil => intro acc h; exact h
  | cons l0 rest ih =>
    intro acc h
    exact ih _ (backStep_dirty_mono dft acc l0 h)

theorem bf_false (dft : CharLangData) (langs : List String) :
    ∀ acc, (langs.foldl (backStep dft) acc).2 = false →
      (langs.foldl (backStep dft) acc).1 = acc.1 := by
  induction langs with
  | nil => intro acc _; rfl
  | cons l0 rest ih =>
    intro acc h
    rw [List.foldl_cons] at h ⊢
    have hs : (backStep dft acc l0).2 = false := by
      cases hb : (backStep dft acc l0).2 with
      | false => rfl
      | true => rw [bf_dirty_mono dft rest _ hb] at h; exact absurd h (by simp)
    rw [backStep_false dft acc l0 hs] at h ⊢
    exact ih acc h

theorem bf_fire (dft : CharLangData) (langs : List String) :
    ∀ acc, (langs.foldl (backStep dft) acc).2 = true →
      acc.2 = true ∨ ∃ lang ∈ langs, lookupA acc.1.name lang = none := by
  induction langs with
  | nil => intro acc h; exact Or.inl h
  | cons l0 rest ih =>
    intro acc h
    rw [List.foldl_cons] at h
    rcases ih _ h with hstep | ⟨lang, hlang, hnone⟩
    · unfold backStep at hstep
      cases hl : lookupA acc.1.name l0 with
      | some w => rw [hl] at hstep; exact Or.inl hstep
      | none => exact Or.inr ⟨l0, List.mem_cons_self _ _, hl⟩
    · unfold backStep at hnone
      cases hl : lookupA acc.1.name l0 with
      | some w =>
        rw [hl] at hnone
        exact Or.inr ⟨lang, List.mem_cons_of_mem _ hlang, hnone⟩
      | none =>
        rw [hl] at hnone
        have hne : l0 ≠ lang := by
          intro he; subst he
          rw [lookupA_insertA_self] at hnone
          exact Option.noConfusion hnone
        rw [lookupA_insertA_ne _ _ _ _ hne] at hnone
        exact Or.inr ⟨lang, List.mem_cons_of_mem _ hlang, hnone⟩

/-- The backfilled record has every required language. -/
theorem backfill_complete (dft t : CharLangData) :
    ∀ lang ∈ all_langs, (lookupA (backfill dft t).1.name lang).isSome = true :=
  fun lang h => bf_isSome_mem dft all_langs (t, false) lang h

theorem backfill_present (dft t : CharLangData) (key v : String)
    (h : lookupA t.name key = some v) :
    lookupA (backfill dft t).1.name key = some v :=
  bf_present dft all_langs (t, false) key v h

theorem backfill_of_complete (dft t : CharLangData)
    (h : ∀ lang ∈ all_langs, (lookupA t.name lang).isSome = true) :
    backfill dft t = (t, false) :=
  bf_noop dft all_langs (t, false) h

theorem backfill_id_short (dft t : CharLangData) :
    (backfill dft t).1.id = t.id ∧ (backfill dft t).1.short_name = t.short_name :=
  bf_id_short dft all_langs (t, false)

theorem backfill_false (dft t : CharLangData) (h : (backfill dft t).2 = false) :
    (backfill dft t).1 = t :=
  bf_false dft all_langs (t, false) h

theorem backfill_fire (dft t : CharLangData) (h : (backfill dft t).2 = true) :
    ∃ lang ∈ all_langs, lookupA t.name lang = none := by
  rcases bf_fire dft all_langs (t, false) h with h' | h'
  · exact absurd h' (by simp)
  · exact h'

/-! ### Lemmas about the merge of a default into an existing entry -/

theorem refreshNames_id_short (dft t : CharLangData) (tja : String) :
    (refreshNames dft t tja).1.id = t.id ∧
    (refreshNames dft t tja).1.short_name = t.short_name := by
  simp only [refreshNames]
  split
  · exact ⟨rfl, rfl⟩
  · exact ⟨rfl, rfl⟩

theorem refreshNames_false (dft t : CharLangData) (tja : String)
    (h : (refreshNames dft t tja).2 = false) : (refreshNames dft t tja).1 = t := by
  simp only [refreshNames] at h ⊢
  by_cases hc : tja ≠ (lookupA dft.name "ja").getD "" ∧ tja ≠ "初音ミク"
  · rw [if_pos hc] at h
    exact absurd h (by simp)
  · rw [if_neg hc]

theorem default_complete (nameToId : String → String) (d : CharData)
    (t : CharLangData) (h : get_default_lang_data nameToId d = some t) :
    ∀ lang ∈ all_langs, (lookupA t.name lang).isSome = true := by
  obtain ⟨-, -, ja, en, ko, hname⟩ := default_name_shape nameToId d t h
  intro lang hl
  rw [hname]
  simp only [all_langs, List.mem_cons, List.mem_singleton] at hl
  rcases hl with rfl | rfl | rfl | rfl | hl
  · simp [lookupA]
  · simp [lookupA]
  · simp [lookupA]
  · simp [lookupA]
  · simp at hl
    rw [hl]
    simp [lookupA]

/-- Inversion of a successful merge. -/
theorem mergeExisting_inv (dft t t' : CharLangData) (b : Bool)
    (h : mergeExisting dft t = .ok (t', b)) :
    ∃ tja, lookupA t.name "ja" = some tja ∧
      t' = (backfill dft (refreshNames dft t tja).1).1 ∧
      b = ((refreshNames dft t tja).2 || (backfill dft (refreshNames dft t tja).1).2) := by
  unfold mergeExisting at h
  cases hja : lookupA t.name "ja" with
  | none => rw [hja] at h; exact absurd h (by simp)
  | some tja =>
    rw [hja] at h
    simp only [Except.ok.injEq, Prod.mk.injEq] at h
    exact ⟨tja, rfl, h.1.symm, h.2.symm⟩

theorem mergeExisting_id_short (dft t t' : CharLangData) (b : Bool)
    (h : mergeExisting dft t = .ok (t', b)) :
    t'.id = t.id ∧ t'.short_name = t.short_name := by
  obtain ⟨tja, -, ht', -⟩ := mergeExisting_inv dft t t' b h
  obtain ⟨h1, h2⟩ := backfill_id_short dft (refreshNames dft t tja).1
  obtain ⟨h3, h4⟩ := refreshNames_id_short dft t tja
  rw [ht']
  exact ⟨h1.trans h3, h2.trans h4⟩

/-- The result of a merge always carries every required language. -/
theorem mergeExisting_complete (dft t t' : CharLangData) (b : Bool)
    (h : mergeExisting dft t = .ok (t', b)) :
    ∀ lang ∈ all_langs, (lookupA t'.name lang).isSome = true := by
  obtain ⟨tja, -, ht', -⟩ := mergeExisting_inv dft t t' b h
  rw [ht']
  exact backfill_complete dft (refreshNames dft t tja).1

/-- Re-merging a merged record changes nothing and is clean. -/
theorem mergeExisting_idem (dft t t' : CharLangData) (b : Bool)
    (h : mergeExisting dft t = .ok (t', b)) :
    mergeExisting dft t' = .ok (t', false) := by
  obtain ⟨tja, hja, ht', -⟩ := mergeExisting_inv dft t t' b h
  have hcomp : ∀ lang ∈ all_langs, (lookupA t'.name lang).isSome = true :=
    mergeExisting_complete dft t t' b h
  by_cases hcond : tja ≠ (lookupA dft.name "ja").getD "" ∧ tja ≠ "初音ミク"
  · -- the refresh fired: the merged Japanese name is the default one
    have hrja : lookupA (refreshNames dft t tja).1.name "ja" =
        some ((lookupA dft.name "ja").getD "") := by
      simp only [refreshNames]
      rw [if_pos hcond]
      show lookupA (insertA (insertA t.name "ja" ((lookupA dft.name "ja").getD ""))
        "en" ((lookupA dft.name "en").getD "")) "ja" = _
      rw [lookupA_insertA_ne _ _ _ _ (show ("en" : String) ≠ "ja" by decide),
        lookupA_insertA_self]
    have htja' : lookupA t'.name "ja" = some ((lookupA dft.name "ja").getD "") := by
      rw [ht']
      exact backfill_present dft _ "ja" _ hrja
    unfold mergeExisting
    have hr2 : refreshNames dft t' ((lookupA dft.name "ja").getD "") = (t', false) := by
      simp only [refreshNames]
      rw [if_neg (fun hc => hc.1 rfl)]
    simp [htja', hr2, backfill_of_complete dft t' hcomp]
  · -- no refresh: the Japanese name is unchanged by the merge
    have hr : refreshNames dft t tja = (t, false) := by
      simp only [refreshNames]
      rw [if_neg hcond]
    have htja' : lookupA t'.name "ja" = some tja := by
      rw [ht', hr]
      exact backfill_present dft _ "ja" _ hja
    unfold mergeExisting
    have hr2 : refreshNames dft t' tja = (t', false) := by
      simp only [refreshNames]
      rw [if_neg hcond]
    simp [htja', hr2, backfill_of_complete dft t' hcomp]

/-- Merging a complete record (such as a freshly adopted default) into
itself changes nothing and is clean. -/
theorem mergeExisting_self (dft : CharLangData)
    (hcomp : ∀ lang ∈ all_langs, (lookupA dft.name lang).isSome = true) :
    mergeExisting dft dft = .ok (dft, false) := by
  have hja : (lookupA dft.name "ja").isSome = true := hcomp "ja" (by decide)
  obtain ⟨dja, hja'⟩ := Option.isSome_iff_exists.mp hja
  unfold mergeExisting
  have hr : refreshNames dft dft dja = (dft, false) := by
    simp only [refreshNames, hja', Option.getD_some]
    rw [if_neg (fun hc => hc.1 rfl)]
  simp [hja', hr, backfill_of_complete dft dft hcomp]

/-- The dirty bit of a merge is set exactly when the merge changed the
entry. -/
theorem mergeExisting_dirty_iff (dft t t' : CharLangData) (b : Bool)
    (h : mergeExisting dft t = .ok (t', b)) : b = false ↔ t' = t := by
  obtain ⟨tja, hja, ht', hb⟩ := mergeExisting_inv dft t t' b h
  constructor
  · intro hbf
    rw [hbf] at hb
    have hor := hb.symm
    rw [Bool.or_eq_false_iff] at hor
    obtain ⟨hr2, hbk2⟩ := hor
    have hr1 : (refreshNames dft t tja).1 = t := refreshNames_false dft t tja hr2
    rw [ht', backfill_false dft _ hbk2, hr1]
  · intro heq
    by_contra hbt
    have hb' : b = true := by
      cases b
      · exact absurd rfl hbt
      · rfl
    rw [hb'] at hb
    cases hr2 : (refreshNames dft t tja).2 with
    | true =>
      -- refresh fired: the Japanese name changed
      have hcond : tja ≠ (lookupA dft.name "ja").getD "" ∧ tja ≠ "初音ミク" := by
        by_contra hc
        simp only [refreshNames] at hr2
        rw [if_neg hc] at hr2
        exact absurd hr2 (by simp)
      have hrja : lookupA (refreshNames dft t tja).1.name "ja" =
          some ((lookupA dft.name "ja").getD "") := by
        simp only [refreshNames]
        rw [if_pos hcond]
        show lookupA (insertA (insertA t.name "ja" ((lookupA dft.name "ja").getD ""))
          "en" ((lookupA dft.name "en").getD "")) "ja" = _
        rw [lookupA_insertA_ne _ _ _ _ (show ("en" : String) ≠ "ja" by decide),
          lookupA_insertA_self]
      have htja' : lookupA t'.name "ja" = some ((lookupA dft.name "ja").getD "") := by
        rw [ht']
        exact backfill_present dft _ "ja" _ hrja
      rw [heq, hja] at htja'
      injection htja' with htja''
      exact hcond.1 htja''
    | false =>
      -- the backfill fired: a language absent from `t` is present in `t'`
      have hr1 : (refreshNames dft t tja).1 = t := refreshNames_false dft t tja hr2
      rw [hr2, Bool.false_or] at hb
      rw [hr1] at ht' hb
      obtain ⟨lang, hlang, hnone⟩ := backfill_fire dft t hb.symm
      have hsome : (lookupA t'.name lang).isSome = true := by
        rw [ht']
        exact backfill_complete dft t lang hlang
      rw [heq, hnone] at hsome
      exact absurd hsome (by simp)

/-! ### The translation state across a run -/

theorem transStep_inv (tr : AList CharLangData) (d : CharData) (dft t' : CharLangData)
    (tr' : AList CharLangData) (b : Bool)
    (h : transStep tr d dft = .ok (t', tr', b)) :
    tr' = insertA tr d.id t' ∧
    ((lookupA tr d.id = none ∧ t' = dft ∧ b = true) ∨
     (∃ t, lookupA tr d.id = some t ∧ mergeExisting dft t = .ok (t', b))) := by
  unfold transStep at h
  cases hl : lookupA tr d.id with
  | none =>
    simp only [hl, Except.ok.injEq, Prod.mk.injEq] at h
    obtain ⟨h1, h2, h3⟩ := h
    subst h1
    exact ⟨h2.symm, Or.inl ⟨rfl, rfl, h3.symm⟩⟩
  | some t =>
    simp only [hl] at h
    cases hm : mergeExisting dft t with
    | error e => simp [hm] at h
    | ok p =>
      obtain ⟨t'', b''⟩ := p
      simp only [hm, Except.ok.injEq, Prod.mk.injEq] at h
      obtain ⟨h1, h2, h3⟩ := h
      subst h1
      subst h3
      exact ⟨h2.symm, Or.inr ⟨t, rfl, hm⟩⟩

theorem mem_insertA {α : Type} (l : AList α) (k : String) (v : α)
    (p : String × α) (h : p ∈ insertA l k v) : p ∈ l ∨ p = (k, v) := by
  induction l with
  | nil => simpa [insertA] using h
  | cons hd rest ih =>
    obtain ⟨k', w⟩ := hd
    by_cases h' : k' = k
    · subst h'
      simp only [insertA, if_pos rfl] at h
      rcases List.mem_cons.mp h with rfl | h''
      · exact Or.inr rfl
      · exact Or.inl (List.mem_cons_of_mem _ h'')
    · simp only [insertA, if_neg h'] at h
      rcases List.mem_cons.mp h with rfl | h''
      · exact Or.inl (List.mem_cons_self _ _)
      · rcases ih h'' with h3 | h3
        · exact Or.inl (List.mem_cons_of_mem _ h3)
        · exact Or.inr h3

/-- Every stored pair's value carries its key as id. -/
def KeyConsistent (tr : AList CharLangData) : Prop :=
  ∀ p ∈ tr, p.2.id = p.1

theorem mkDict_inv (ts : List CharLangData) :
    KeyConsistent (mkDict ts) ∧ (keysA (mkDict ts)).Nodup := by
  unfold mkDict
  suffices h : ∀ acc, KeyConsistent acc → (keysA acc).Nodup →
      KeyConsistent (ts.foldl (fun acc t => insertA acc t.id t) acc) ∧
      (keysA (ts.foldl (fun acc t => insertA acc t.id t) acc)).Nodup by
    exact h [] (fun p hp => absurd hp (List.not_mem_nil p)) List.nodup_nil
  induction ts with
  | nil => intro acc h1 h2; exact ⟨h1, h2⟩
  | cons t rest ih =>
    intro acc h1 h2
    rw [List.foldl_cons]
    refine ih _ ?_ (nodup_keysA_insertA _ _ _ h2)
    intro p hp
    rcases mem_insertA acc t.id t p hp with h3 | h3
    · exact h1 p h3
    · rw [h3]

theorem charLoop_store_inv (ctx : Ctx) (mappings : AList String) (l : List CharData) :
    ∀ st st', charLoop ctx mappings st l = .ok st' →
      KeyConsistent st.translations → (keysA st.translations).Nodup →
      KeyConsistent st'.translations ∧ (keysA st'.translations).Nodup := by
  induction l with
  | nil =>
    intro st st' h h1 h2
    simp only [charLoop, Except.ok.injEq] at h
    rw [← h]
    exact ⟨h1, h2⟩
  | cons d rest ih =>
    intro st st' h h1 h2
    unfold charLoop at h
    cases hpc : processChar ctx mappings st d with
    | error e => simp [hpc] at h
    | ok st1 =>
      simp only [hpc] at h
      obtain ⟨dft, t', b, imgs, hdft, hts, -⟩ := processChar_inv ctx mappings st d st1 hpc
      obtain ⟨htr, hcase⟩ := transStep_inv st.translations d dft t' st1.translations b hts
      have htid : t'.id = d.id := by
        rcases hcase with ⟨-, rfl, -⟩ | ⟨t, hsome, hmerge⟩
        · exact (default_name_shape ctx.nameToId d t' hdft).1
        · rw [(mergeExisting_id_short dft t t' b hmerge).1]
          exact h1 (d.id, t) (mem_of_lookupA _ _ _ hsome)
      refine ih st1 st' h ?_ ?_
      · intro p hp
        rw [htr] at hp
        rcases mem_insertA st.translations d.id t' p hp with h3 | h3
        · exact h1 p h3
        · rw [h3]
          exact htid
      · rw [htr]
        exact nodup_keysA_insertA _ _ _ h2

theorem charLoop_frame (ctx : Ctx) (mappings : AList String) (l : List CharData) :
    ∀ st st', charLoop ctx mappings st l = .ok st' →
      ∀ k, (∀ d ∈ l, d.id ≠ k) →
        lookupA st'.translations k = lookupA st.translations k := by
  induction l with
  | nil =>
    intro st st' h k _
    simp only [charLoop, Except.ok.injEq] at h
    rw [← h]
  | cons d rest ih =>
    intro st st' h k hk
    unfold charLoop at h
    cases hpc : processChar ctx mappings st d with
    | error e => simp [hpc] at h
    | ok st1 =>
      simp only [hpc] at h
      obtain ⟨dft, t', b, imgs, -, hts, -⟩ := processChar_inv ctx mappings st d st1 hpc
      obtain ⟨htr, -⟩ := transStep_inv st.translations d dft t' st1.translations b hts
      rw [ih st1 st' h k (fun d' hd' => hk d' (List.mem_cons_of_mem _ hd')), htr,
        lookupA_insertA_ne _ _ _ _ (hk d (List.mem_cons_self _ _))]

theorem insertA_append {α : Type} (l : AList α) (k : String) (v : α)
    (h : k ∉ keysA l) : insertA l k v = l ++ [(k, v)] := by
  induction l with
  | nil => rfl
  | cons hd rest ih =>
    obtain ⟨k', w⟩ := hd
    simp only [keysA, List.map_cons, List.mem_cons] at h
    push_neg at h
    simp only [insertA, if_neg (Ne.symm h.1), List.cons_append, List.cons.injEq, true_and]
    exact ih h.2

theorem mkDict_eq_pairs (l : List CharLangData)
    (hnd : (l.map (fun t => t.id)).Nodup) :
    mkDict l = l.map (fun t => (t.id, t)) := by
  unfold mkDict
  suffices h : ∀ acc : AList CharLangData, (∀ t ∈ l, t.id ∉ keysA acc) →
      (l.map (fun t => t.id)).Nodup →
      l.foldl (fun acc t => insertA acc t.id t) acc = acc ++ l.map (fun t => (t.id, t)) by
    simpa using h [] (by simp [keysA]) hnd
  clear hnd
  induction l with
  | nil => intro acc _ _; simp
  | cons t rest ih =>
    intro acc hfresh hnd
    simp only [List.map_cons, List.nodup_cons] at hnd
    rw [List.foldl_cons, insertA_append acc t.id t (hfresh t (List.mem_cons_self _ _))]
    rw [ih _ ?_ hnd.2]
    · simp
    · intro t' ht'
      simp only [keysA, List.map_append, List.mem_append]
      push_neg
      refine ⟨fun hk => hfresh t' (List.mem_cons_of_mem _ ht') hk, ?_⟩
      simp only [List.map_cons, List.map_nil, List.mem_singleton]
      intro he
      exact hnd.1 (he ▸ List.mem_map_of_mem (fun t => t.id) ht')

/-- Re-keying any permutation of the values of a key-consistent store
with distinct keys restores the same lookups. -/
theorem mkDict_lookup_eq (tr : AList CharLangData) (l : List CharLangData)
    (hkc : KeyConsistent tr) (hnd : (keysA tr).Nodup)
    (hperm : l.Perm (tr.map Prod.snd)) :
    ∀ k, lookupA (mkDict l) k = lookupA tr k := by
  have hids : (tr.map Prod.snd).map (fun t => t.id) = keysA tr := by
    rw [List.map_map]
    exact List.map_congr_left (fun p hp => hkc p hp)
  have hndl : (l.map (fun t => t.id)).Nodup := by
    refine ((hperm.map (fun t => t.id)).nodup_iff).mpr ?_
    rw [hids]
    exact hnd
  have hpairs : mkDict l = l.map (fun t => (t.id, t)) := mkDict_eq_pairs l hndl
  have hkeys : keysA (l.map (fun t => (t.id, t))) = l.map (fun t => t.id) := by
    simp [keysA, List.map_map]
  intro k
  cases hv : lookupA tr k with
  | some v =>
    have hmem : (k, v) ∈ tr := mem_of_lookupA tr k v hv
    have hvid : v.id = k := hkc (k, v) hmem
    have hvl : v ∈ l := hperm.mem_iff.mpr (List.mem_map_of_mem Prod.snd hmem)
    have hpmem : (k, v) ∈ l.map (fun t => (t.id, t)) := by
      simpa [hvid] using List.mem_map_of_mem (fun t => (t.id, t)) hvl
    rw [hpairs]
    exact lookupA_of_mem_nodup _ k v hpmem (by rw [hkeys]; exact hndl)
  | none =>
    rw [hpairs]
    rw [lookupA_eq_none_iff] at hv ⊢
    rw [hkeys]
    intro hk
    obtain ⟨t, htl, htid⟩ := List.mem_map.mp hk
    have : t ∈ tr.map Prod.snd := hperm.mem_iff.mp htl
    obtain ⟨p, hp, hpt⟩ := List.mem_map.mp this
    apply hv
    have : p.1 = k := by rw [← hkc p hp, hpt, htid]
    rw [← this]
    exact List.mem_map_of_mem Prod.fst hp

/-! ### The second run (C2) -/

theorem processChar_second (ctx : Ctx) (mappings : AList String) (st st1 : St)
    (d : CharData) (D : AList CharLangData)
    (hpc : processChar ctx mappings st d = .ok st1)
    (hDid : lookupA D d.id = lookupA st1.translations d.id) :
    processChar ctx mappings { st with translations := D, dirty := false } d =
      .ok { st1 with translations := D, dirty := false } := by
  obtain ⟨dft, t', b, imgs, hdft, hts, hpi, hdirty, hres, hns, hnc⟩ :=
    processChar_inv ctx mappings st d st1 hpc
  obtain ⟨htr, hcase⟩ := transStep_inv st.translations d dft t' st1.translations b hts
  have hlook1 : lookupA st1.translations d.id = some t' := by
    rw [htr]
    exact lookupA_insertA_self _ _ _
  have hlookD : lookupA D d.id = some t' := hDid.trans hlook1
  have hmerge2 : mergeExisting dft t' = .ok (t', false) := by
    rcases hcase with ⟨-, rfl, -⟩ | ⟨t, -, hmerge⟩
    · exact mergeExisting_self t' (default_complete ctx.nameToId d t' hdft)
    · exact mergeExisting_idem dft t t' b hmerge
  have htsD : transStep D d dft = .ok (t', D, false) := by
    unfold transStep
    simp only [hlookD, hmerge2]
    rw [insertA_lookup_self D d.id t' hlookD]
  unfold processChar
  simp only [hdft, htsD, hpi]
  rw [← hres, ← hns, ← hnc]
  rfl

theorem charLoop_second (ctx : Ctx) (mappings : AList String) (l : List CharData) :
    ∀ st st' D, charLoop ctx mappings st l = .ok st' →
      (l.map CharData.id).Nodup →
      (∀ k, lookupA D k = lookupA st'.translations k) →
      charLoop ctx mappings { st with translations := D, dirty := false } l =
        .ok { st' with translations := D, dirty := false } := by
  induction l with
  | nil =>
    intro st st' D h _ _
    simp only [charLoop, Except.ok.injEq] at h
    rw [h]
    rfl
  | cons d rest ih =>
    intro st st' D h hnd hD
    unfold charLoop at h
    cases hpc : processChar ctx mappings st d with
    | error e => simp [hpc] at h
    | ok st1 =>
      simp only [hpc] at h
      simp only [List.map_cons, List.nodup_cons] at hnd
      have hframe : lookupA st'.translations d.id = lookupA st1.translations d.id := by
        refine charLoop_frame ctx mappings rest st1 st' h d.id ?_
        intro d' hd' he
        exact hnd.1 (he ▸ List.mem_map_of_mem CharData.id hd')
      have hDid : lookupA D d.id = lookupA st1.translations d.id :=
        (hD d.id).trans hframe
      have hpc2 := processChar_second ctx mappings st st1 d D hpc hDid
      unfold charLoop
      simp only [hpc2]
      exact ih st1 st' D h hnd.2 hD

/-- The translation store on disk after a run: the written store, or the
unchanged input when no write happened. -/
def storeAfter (env : Env) : List CharLangData :=
  match get_chars env with
  | .ok o => o.storeWrite.getD env.translations
  | .error _ => env.translations

/-- The translation-store write of a run outcome. -/
def storeWriteOf (e : Except RunError RunOutput) : Option (List CharLangData) :=
  match e with
  | .ok o => o.storeWrite
  | .error _ => none

/-- A character-data file with two records sharing the id `"x"` (one
without and one with a family name). -/
def c2DupEnv : Env :=
  ⟨"r", [⟨"x", "", "a", "", "", "", "", []⟩, ⟨"x", "F", "P", "FR", "PR", "", "", []⟩],
   [⟨"c1", ["x"]⟩], [⟨"s1", ["x"]⟩], [], [], [], [], fun s => s⟩

/-- **C2 counterexample**: with two character records sharing one id, both
runs succeed but the second run — on the store the first run wrote —
refreshes the shared entry back and forth and writes the store again. -/
theorem second_run_rewrites_counterexample :
    exceptOk (get_chars c2DupEnv) = true ∧
    exceptOk (get_chars { c2DupEnv with translations := storeAfter c2DupEnv }) = true ∧
    (storeWriteOf (get_chars
      { c2DupEnv with translations := storeAfter c2DupEnv })).isSome = true := by
  refine ⟨?_, ?_, ?_⟩ <;> decide

/-- **C2** (amended): provided the character records' ids are pairwise
distinct, a second `get_chars` run on unchanged inputs — with the
translation store left by the first run — succeeds and performs no
translation-store write: every merge step finds nothing to change, so the
dirty flag stays false. -/
theorem get_chars_idempotent_second_run (env : Env) (out1 : RunOutput)
    (hids : (env.charData.map CharData.id).Nodup)
    (h1 : get_chars env = .ok out1) :
    ∃ out2,
      get_chars { env with translations := out1.storeWrite.getD env.translations } =
        .ok out2 ∧ out2.storeWrite = none := by
  obtain ⟨st, hloop, hft, hsw, hrs, hrc, hchars, hav, hcfg⟩ := get_chars_inv env out1 h1
  cases hdirty : st.dirty with
  | false =>
    have hswn : out1.storeWrite = none := by
      rw [hsw, hdirty]
      rfl
    refine ⟨out1, ?_, hswn⟩
    have hgetd : out1.storeWrite.getD env.translations = env.translations := by
      rw [hswn]
      rfl
    rw [hgetd]
    exact h1
  | true =>
    have hswsome : out1.storeWrite =
        some (sortByIdLower (st.translations.map Prod.snd)) := by
      rw [hsw, hdirty]
      rfl
    have hKC0 : KeyConsistent (initSt env).translations := (mkDict_inv env.translations).1
    have hND0 : (keysA (initSt env).translations).Nodup := (mkDict_inv env.translations).2
    obtain ⟨hKC, hND⟩ := charLoop_store_inv (ctxOf env) (legacyMappings env.legacyRaw)
      env.charData (initSt env) st hloop hKC0 hND0
    have hlookeq : ∀ k,
        lookupA (mkDict (sortByIdLower (st.translations.map Prod.snd))) k =
          lookupA st.translations k :=
      mkDict_lookup_eq st.translations _ hKC hND (List.perm_insertionSort _ _)
    have hloop2 := charLoop_second (ctxOf env) (legacyMappings env.legacyRaw)
      env.charData (initSt env) st (mkDict (sortByIdLower (st.translations.map Prod.snd)))
      hloop hids hlookeq
    refine ⟨⟨st.result, st.avatar, st.imgConfig,
      mkDict (sortByIdLower (st.translations.map Prod.snd)), none,
      out1.noSchoolReport, out1.noClubReport⟩, ?_, rfl⟩
    rw [hswsome]
    have hloop2' : charLoop
        (ctxOf { env with translations := sortByIdLower (st.translations.map Prod.snd) })
        (legacyMappings
          { env with translations := sortByIdLower (st.translations.map Prod.snd) }.legacyRaw)
        (initSt { env with translations := sortByIdLower (st.translations.map Prod.snd) })
        { env with translations := sortByIdLower (st.translations.map Prod.snd) }.charData =
        .ok { st with
                translations := mkDict (sortByIdLower (st.translations.map Prod.snd)),
                dirty := false } := hloop2
    show get_chars { env with translations := sortByIdLower (st.translations.map Prod.snd) }
      = _
    unfold get_chars
    simp only [hloop2']
    simp only [hrs, hrc]
    rfl

/-- **C2 witness**: a concrete single-character input whose first run
writes the store and whose second run writes nothing. -/
theorem get_chars_idempotent_second_run_witness :
    ((⟨"r", [⟨"h", "F", "P", "FR", "PR", "", "", []⟩], [⟨"c", ["h"]⟩], [⟨"s", ["h"]⟩],
        [], [], [], [], fun s => s⟩ : Env).charData.map CharData.id).Nodup ∧
    get_chars ⟨"r", [⟨"h", "F", "P", "FR", "PR", "", "", []⟩], [⟨"c", ["h"]⟩],
        [⟨"s", ["h"]⟩], [], [], [], [], fun s => s⟩ =
      .ok ⟨[⟨"h", [("ja", "F P"), ("en", "FR PR"), ("ko", ""), ("zh-cn", ""), ("zh-tw", "")],
          [("ja", "P"), ("en", "PR"), ("ko", ""), ("zh-cn", ""), ("zh-tw", "")], [],
          ["c", "s"], []⟩], [], [],
        [("h", ⟨"h", [("ja", "F P"), ("en", "FR PR"), ("ko", ""), ("zh-cn", ""),
          ("zh-tw", "")], none⟩)],
        some [⟨"h", [("ja", "F P"), ("en", "FR PR"), ("ko", ""), ("zh-cn", ""),
          ("zh-tw", "")], none⟩], [], []⟩ ∧
    (∃ out2,
      get_chars { (⟨"r", [⟨"h", "F", "P", "FR", "PR", "", "", []⟩], [⟨"c", ["h"]⟩],
          [⟨"s", ["h"]⟩], [], [], [], [], fun s => s⟩ : Env) with
        translations :=
          (some [(⟨"h", [("ja", "F P"), ("en", "FR PR"), ("ko", ""), ("zh-cn", ""),
            ("zh-tw", "")], none⟩ : CharLangData)]).getD [] } = .ok out2 ∧
      out2.storeWrite = none) :=
  ⟨by decide, by decide,
    get_chars_idempotent_second_run
      ⟨"r", [⟨"h", "F", "P", "FR", "PR", "", "", []⟩], [⟨"c", ["h"]⟩], [⟨"s", ["h"]⟩],
        [], [], [], [], fun s => s⟩
      ⟨[⟨"h", [("ja", "F P"), ("en", "FR PR"), ("ko", ""), ("zh-cn", ""), ("zh-tw", "")],
          [("ja", "P"), ("en", "PR"), ("ko", ""), ("zh-cn", ""), ("zh-tw", "")], [],
          ["c", "s"], []⟩], [], [],
        [("h", ⟨"h", [("ja", "F P"), ("en", "FR PR"), ("ko", ""), ("zh-cn", ""),
          ("zh-tw", "")], none⟩)],
        some [⟨"h", [("ja", "F P"), ("en", "FR PR"), ("ko", ""), ("zh-cn", ""),
          ("zh-tw", "")], none⟩], [], []⟩
      (by decide) (by decide)⟩

/-! ### The store write (C8) -/

theorem charLoop_dirty_mono (ctx : Ctx) (mappings : AList String) (l : List CharData) :
    ∀ st st', charLoop ctx mappings st l = .ok st' → st.dirty = true →
      st'.dirty = true := by
  induction l with
  | nil =>
    intro st st' h hd
    simp only [charLoop, Except.ok.injEq] at h
    rw [← h]
    exact hd
  | cons d rest ih =>
    intro st st' h hd
    unfold charLoop at h
    cases hpc : processChar ctx mappings st d with
    | error e => simp [hpc] at h
    | ok st1 =>
      simp only [hpc] at h
      obtain ⟨dft, t', b, imgs, -, -, -, hdirty, -⟩ :=
        processChar_inv ctx mappings st d st1 hpc
      exact ih st1 st' h (by rw [hdirty, hd]; rfl)

theorem charLoop_clean (ctx : Ctx) (mappings : AList String) (l : List CharData) :
    ∀ st st', charLoop ctx mappings st l = .ok st' → st'.dirty = false →
      st'.translations = st.translations := by
  induction l with
  | nil =>
    intro st st' h _
    simp only [charLoop, Except.ok.injEq] at h
    rw [← h]
  | cons d rest ih =>
    intro st st' h hd
    unfold charLoop at h
    cases hpc : processChar ctx mappings st d with
    | error e => simp [hpc] at h
    | ok st1 =>
      simp only [hpc] at h
      obtain ⟨dft, t', b, imgs, -, hts, -, hdirty, -⟩ :=
        processChar_inv ctx mappings st d st1 hpc
      have hst1 : st1.dirty = false := by
        cases hdd : st1.dirty with
        | false => rfl
        | true => rw [charLoop_dirty_mono ctx mappings rest st1 st' h hdd] at hd; exact
            absurd hd (by simp)
      have hb : b = false := by
        rw [hdirty] at hst1
        exact (Bool.or_eq_false_iff.mp hst1).2
      obtain ⟨htr, hcase⟩ := transStep_inv st.translations d dft t' st1.translations b hts
      rcases hcase with ⟨-, -, hbtrue⟩ | ⟨t, hsome, hmerge⟩
      · rw [hb] at hbtrue; exact absurd hbtrue (by simp)
      · have ht' : t' = t := (mergeExisting_dirty_iff dft t t' b hmerge).mp hb
        have htr' : st1.translations = st.translations := by
          rw [htr, ht']
          exact insertA_lookup_self _ _ _ hsome
        rw [ih st1 st' h hd, htr']

/-- **C8**: the translation store is rewritten exactly when something was
added or updated: an untouched store means the final translation state is
the loaded one; a written store holds the full set of translations (a
permutation of the final state's values) sorted by id compared
case-insensitively; and a merge step reports a change exactly when it
changed its entry. -/
theorem store_write_characterization (env : Env) (out : RunOutput)
    (h : get_chars env = .ok out) :
    (out.storeWrite = none → out.finalTrans = mkDict env.translations) ∧
    (∀ l, out.storeWrite = some l →
      l.Perm (out.finalTrans.map Prod.snd) ∧
      l.Sorted (fun a b => strLe (strLower a.id) (strLower b.id) = true)) ∧
    (∀ dft t t' : CharLangData, ∀ b : Bool,
      mergeExisting dft t = Except.ok (t', b) → (b = false ↔ t' = t)) := by
  obtain ⟨st, hloop, hft, hsw, -, -, -, -, -⟩ := get_chars_inv env out h
  refine ⟨?_, ?_, fun dft t t' b hm => mergeExisting_dirty_iff dft t t' b hm⟩
  · intro hnone
    rw [hsw] at hnone
    cases hd : st.dirty with
    | true => rw [hd] at hnone; exact absurd hnone (by simp)
    | false =>
      rw [hft]
      exact charLoop_clean (ctxOf env) (legacyMappings env.legacyRaw) env.charData
        (initSt env) st hloop hd
  · intro l hsome
    rw [hsw] at hsome
    cases hd : st.dirty with
    | false => rw [hd] at hsome; exact absurd hsome (by simp)
    | true =>
      rw [hd] at hsome
      simp only [if_true, Option.some.injEq] at hsome
      rw [hft, ← hsome]
      exact ⟨List.perm_insertionSort _ _, List.sorted_insertionSort _ _⟩

/-- **C8 witness**: the empty run leaves the store untouched and the
characterization holds. -/
theorem store_write_characterization_witness :
    get_chars ⟨"r", [], [], [], [], [], [], [], fun s => s⟩ =
      .ok ⟨[], [], [], [], none, [], []⟩ ∧
    (((⟨[], [], [], [], none, [], []⟩ : RunOutput).storeWrite = none →
      (⟨[], [], [], [], none, [], []⟩ : RunOutput).finalTrans = mkDict []) ∧
    (∀ l, (⟨[], [], [], [], none, [], []⟩ : RunOutput).storeWrite = some l →
      l.Perm ((⟨[], [], [], [], none, [], []⟩ : RunOutput).finalTrans.map Prod.snd) ∧
      l.Sorted (fun a b => strLe (strLower a.id) (strLower b.id) = true)) ∧
    (∀ dft t t' : CharLangData, ∀ b : Bool,
      mergeExisting dft t = Except.ok (t', b) → (b = false ↔ t' = t))) :=
  ⟨by decide,
    store_write_characterization ⟨"r", [], [], [], [], [], [], [], fun s => s⟩
      ⟨[], [], [], [], none, [], []⟩ (by decide)⟩

end ClosureTalk
